import Mathlib

/-!
# Verification of the `confusing` configuration decoder

Shallow embedding of the Go library `Pyrodash/confusing` (files
`confusing.go`, `source.go`, `normalizer.go`, `map.go`, `env.go` and the
helpers `camelToSnake`, `lcfirst`, `parseBool`, `processStructField` from the
utility file), together with proofs about the claims of its specification.

Modelling conventions:
* Go strings are Lean `String`s; `strings.ToLower`/`ToUpper` are modelled by
  ASCII case mapping (the Go versions are Unicode-aware, but the regular
  expression character classes `[A-Z]`, `[a-z0-9]` used by `camelToSnake` and
  the boolean literals accepted by `parseBool` are pure ASCII, so the two
  agree on every comparison the library performs).
* Go's `regexp.ReplaceAllString` for the two fixed patterns
  `(.)([A-Z][a-z]+)` and `([a-z0-9])([A-Z])` is implemented directly as a
  leftmost, non-overlapping, greedy scan over the character list.
* A Go panic (out-of-range rune index in `lcfirst`) is modelled by `Option`:
  `none` is a panic.
* Machine integers are `Int` (no claim depends on fixed-width overflow) and
  `float64` is `Rat` (no claim depends on rounding).
-/

/-! ## ASCII case mapping and character classes -/

/-- ASCII lower-casing of one character (`'A'`–`'Z'` map to `'a'`–`'z'`,
codepoints 65–90 to 97–122). -/
def asciiLower (c : Char) : Char :=
  if 65 ≤ c.toNat ∧ c.toNat ≤ 90 then Char.ofNat (c.toNat + 32) else c

/-- ASCII upper-casing of one character (`'a'`–`'z'` map to `'A'`–`'Z'`). -/
def asciiUpper (c : Char) : Char :=
  if 97 ≤ c.toNat ∧ c.toNat ≤ 122 then Char.ofNat (c.toNat - 32) else c

def lowerStr (s : String) : String := ⟨s.data.map asciiLower⟩

def upperStr (s : String) : String := ⟨s.data.map asciiUpper⟩

/-- The character class `[A-Z]` (codepoints 65–90). -/
def isUpperAZ (c : Char) : Bool := decide (65 ≤ c.toNat ∧ c.toNat ≤ 90)

/-- The character class `[a-z]` (codepoints 97–122). -/
def isLowerAZ (c : Char) : Bool := decide (97 ≤ c.toNat ∧ c.toNat ≤ 122)

/-- The character class `[a-z0-9]` of the regular expression `matchAllCap`
(digits are codepoints 48–57). -/
def isLowerOrDigit (c : Char) : Bool := isLowerAZ c || decide (48 ≤ c.toNat ∧ c.toNat ≤ 57)

/-! ## `camelToSnake` -/

/-- Maximal run of `[a-z]` characters (the greedy `[a-z]+` of the regex). -/
def spanLower : List Char → List Char × List Char
  | [] => ([], [])
  | c :: cs =>
    if isLowerAZ c then
      let p := spanLower cs
      (c :: p.1, p.2)
    else ([], c :: cs)

theorem spanLower_snd_length (l : List Char) : (spanLower l).2.length ≤ l.length := by
  induction l with
  | nil => simp [spanLower]
  | cons c cs ih =>
    simp only [spanLower]
    split
    · simpa using Nat.le_succ_of_le ih
    · simp

/-- `matchFirstCap.ReplaceAllString(input, "${1}_${2}")` for the pattern
`(.)([A-Z][a-z]+)`: any character other than a newline, followed by an
uppercase letter and a nonempty greedy run of lowercase letters, gets an
underscore inserted after the first character.  Matches are leftmost and
non-overlapping, exactly as Go's `regexp.ReplaceAllString`. -/
def firstCapRepl : List Char → List Char
  | c1 :: c2 :: c3 :: rest =>
    if c1 ≠ '\n' ∧ isUpperAZ c2 ∧ isLowerAZ c3 then
      let p := spanLower (c3 :: rest)
      c1 :: '_' :: c2 :: (p.1 ++ firstCapRepl p.2)
    else
      c1 :: firstCapRepl (c2 :: c3 :: rest)
  | l => l
termination_by l => l.length
decreasing_by
  · have := spanLower_snd_length (c3 :: rest)
    simp at this ⊢
    omega
  · simp

/-- `matchAllCap.ReplaceAllString(input, "${1}_${2}")` for the pattern
`([a-z0-9])([A-Z])`. -/
def allCapRepl : List Char → List Char
  | c1 :: c2 :: rest =>
    if isLowerOrDigit c1 ∧ isUpperAZ c2 then
      c1 :: '_' :: c2 :: allCapRepl rest
    else
      c1 :: allCapRepl (c2 :: rest)
  | l => l

/-- The same replacement as `firstCapRepl`, written as a structurally
recursive left-to-right scan: the boolean records whether the scan position
is inside the greedy `[a-z]+` run of a match already emitted (in which case
lowercase letters are copied until the run ends, as the regex engine consumes
them).  `firstCapScan_eq_repl` below proves the two agree. -/
def firstCapScan : Bool → List Char → List Char
  | b, c1 :: rest1 =>
    if b ∧ isLowerAZ c1 then c1 :: firstCapScan true rest1
    else
      match rest1 with
      | c2 :: c3 :: rest =>
        if c1 ≠ '\n' ∧ isUpperAZ c2 ∧ isLowerAZ c3 then
          c1 :: '_' :: c2 :: firstCapScan true (c3 :: rest)
        else c1 :: firstCapScan false (c2 :: c3 :: rest)
      | _ => c1 :: rest1
  | _, [] => []

/-- Go `camelToSnake(input, ensureLowercase)`. -/
def camelToSnake (input : String) (ensureLowercase : Bool) : String :=
  let r : String := ⟨allCapRepl (firstCapScan false input.data)⟩
  if ensureLowercase then lowerStr r else r

/-! ## Key splitting and joining (`strings.Split`, `strings.Join`) -/

/-- `strings.Split(s, sep)` for a single-character separator: every occurrence
splits, empty pieces are kept, and the empty string yields `[[]]`. -/
def splitOn1 (sep : Char) : List Char → List (List Char)
  | [] => [[]]
  | c :: cs =>
    let r := splitOn1 sep cs
    if c = sep then [] :: r
    else
      match r with
      | h :: t => (c :: h) :: t
      | [] => [[c]]

theorem splitOn1_ne_nil (sep : Char) (l : List Char) : splitOn1 sep l ≠ [] := by
  induction l with
  | nil => simp [splitOn1]
  | cons c cs ih =>
    simp only [splitOn1]
    split
    · simp
    · cases h : splitOn1 sep cs with
      | nil => exact absurd h ih
      | cons a t => simp [h]

/-- `strings.Join(parts, sep)` for a single-character separator. -/
def joinWith1 (sep : Char) : List (List Char) → List Char
  | [] => []
  | [p] => p
  | p :: ps => p ++ sep :: joinWith1 sep ps

/-! ## `lcfirst` and the three normalizers -/

/-- Go `lcfirst`: lowers the first rune.  On the empty string, `r[0]` is an
out-of-range index and the program panics, modelled by `none`. -/
def lcfirst : List Char → Option (List Char)
  | [] => none
  | c :: cs => some (asciiLower c :: cs)

/-- The three registered key-naming conventions (the package-level
`normalizers` map of `normalizer.go`; no API ever adds to it). -/
inductive Conv where
  | snake
  | camel
  | upperSnake
deriving DecidableEq, Repr

/-- `SnakeCaseNormalizer.Normalize` -/
def snakeNormalize (key : String) : String := camelToSnake key true

/-- `UpperSnakeCaseNormalizer.Normalize` -/
def upperSnakeNormalize (key : String) : String :=
  let parts := splitOn1 '.' key.data
  let parts := parts.map fun part => (upperStr (camelToSnake ⟨part⟩ false)).data
  ⟨joinWith1 '_' parts⟩

/-- The `for i, part := range parts` loop of `CamelCaseNormalizer.Normalize`:
apply `lcfirst` to every segment; a panic on any segment aborts. -/
def lcfirstAll : List (List Char) → Option (List (List Char))
  | [] => some []
  | p :: ps =>
    match lcfirst p, lcfirstAll ps with
    | some q, some qs => some (q :: qs)
    | _, _ => none

/-- `CamelCaseNormalizer.Normalize`; `none` models the `lcfirst` panic on an
empty dot-segment. -/
def camelNormalize (key : String) : Option String :=
  let parts := splitOn1 '.' key.data
  (lcfirstAll parts).map fun parts => ⟨joinWith1 '.' parts⟩

/-- `KeyNormalizer.Normalize` dispatch; `none` is a panic. -/
def normalizeConv : Conv → String → Option String
  | .snake, k => some (snakeNormalize k)
  | .camel, k => camelNormalize k
  | .upperSnake, k => some (upperSnakeNormalize k)

/-! ## Errors -/

/-- The error values the library can produce.  `custom n` stands for an
opaque error value returned by a user-supplied `ReadConfig` implementation
(the tag `n` identifies it; propagation is verbatim). -/
inductive GoError where
  /-- `InvalidBooleanError` -/
  | invalidBoolean
  /-- an error from `strconv.Atoi` / `strconv.ParseFloat` -/
  | strconvError
  /-- an error from `encoding/json.Unmarshal` -/
  | jsonError
  /-- `UnknownConventionError` -/
  | unknownConvention (c : String)
  /-- "target must be a non-nil pointer" / "target must be a struct" -/
  | invalidTarget
  /-- "unsupported target type" in `readEnvPrimitive` -/
  | unsupportedTarget
  /-- opaque error returned by a custom `ReadConfig` decoder -/
  | custom (n : Nat)
deriving DecidableEq, Repr

/-! ## `parseBool` -/

/-- Go `parseBool` from the utility file: a `switch` on
`strings.ToLower(val)`. -/
def parseBool (val : String) : Except GoError Bool :=
  let l := lowerStr val
  if l = "1" ∨ l = "yes" ∨ l = "on" then .ok true
  else if l = "0" ∨ l = "no" ∨ l = "off" then .ok false
  else .error .invalidBoolean

/-! ## Convention resolution (`normalizer.go`) -/

/-- `GetNormalizer`: lookup in the fixed `normalizers` map; `none` models the
Go `nil` result for an unregistered convention name. -/
def GetNormalizer : String → Option Conv
  | "snake" => some .snake
  | "camel" => some .camel
  | "upper_snake" => some .upperSnake
  | _ => none

/-- Process-wide mutable state and external collaborators, passed explicitly:
the process environment (`os.Getenv`; missing variables read as `""`) and a
snapshot of the `sourceConventions` registry. -/
structure Gbl where
  getenv : String → String
  sourceConventions : List (String × String)

/-- The built-in `sourceConventions` registry contents. -/
def defaultSourceConventions : List (String × String) :=
  [("env", "upper_snake"), ("yaml", "snake"), ("json", "camel")]

def stringOrDefault (key defaultValue : String) : String :=
  if key = "" then defaultValue else key

/-- `GetConventionForSourceType` -/
def GetConventionForSourceType (g : Gbl) (sourceType : String) : String :=
  let convention := ((g.sourceConventions.lookup sourceType).getD "")
  let conventionEnvVar := (upperStr sourceType) ++ "_CONVENTION"
  stringOrDefault (g.getenv conventionEnvVar) convention

/-- `NormalizerForSourceType` -/
def NormalizerForSourceType (g : Gbl) (convention : String) (sourceType : String) :
    Except GoError Conv :=
  if convention ≠ "" then
    match GetNormalizer convention with
    | some n => .ok n
    | none => .error (.unknownConvention convention)
  else
    let convention := GetConventionForSourceType g sourceType
    match GetNormalizer convention with
    | some n => .ok n
    | none => .error (.unknownConvention convention)

/-! ## The generic source tree (`map[string]interface{}` values)

`vnull` stands for the nil `interface{}` (also produced by a missing map key
and by JSON `null`); it corresponds to an invalid `reflect.Value`. -/

inductive GoValue where
  | vnull
  | vstring (s : String)
  | vint (n : Int)
  | vfloat (q : Rat)
  | vbool (b : Bool)
  | vslice (xs : List GoValue)
  | vmap (es : List (String × GoValue))

/-! ## Runtime type descriptors

`tstruct` fields carry the logical key already produced by
`processStructField` (tag override, else field name; `""` for a field that
contributes no key and is skipped).  `tnamed n` is a defined (named) struct
type whose fields live in a type environment, which is how a recursive Go
type such as `type Node struct { Next *Node }` is expressed.  `tint` is Go's
plain `int` and `tfloat` is `float64`. -/

inductive GoType where
  | tstring
  | tint
  | tfloat
  | tbool
  | tptr (t : GoType)
  | tslice (t : GoType)
  | tmap (k v : GoType)
  | tstruct (fields : List (String × GoType))
  | tnamed (n : String)

/-- Named-struct environment: the bodies of the program's defined struct
types. -/
abbrev TypeEnv : Type := List (String × List (String × GoType))

def envFields (tenv : TypeEnv) (n : String) : List (String × GoType) :=
  ((List.lookup n tenv).getD [])

/-- Struct kind check (`reflect.Kind() == reflect.Struct`). -/
def isStructKind : GoType → Bool
  | .tstruct _ => true
  | .tnamed _ => true
  | _ => false

/-! ## Destination values under construction

`dzero t` is a slot of type `t` that was never written (the Go zero value).
Pointees are stored inline in `dptr` (each allocation made by the decoder is
reachable from exactly one pointer).  Note: committing a map entry or
installing a slice copies the value in this model; Go copies map/slice
*headers* so later writes through shared storage stay visible.  No claim in
scope depends on that aliasing (it only affects the contents of maps nested
inside maps). -/

inductive DVal where
  | dzero (t : GoType)
  | dstring (s : String)
  | dint (n : Int)
  | dfloat (q : Rat)
  | dbool (b : Bool)
  | dptr (t : GoType) (v : Option DVal)
  | dslice (t : GoType) (xs : List DVal)
  | dmap (k v : GoType) (es : List (DVal × DVal))
  | dstruct (fields : List (String × DVal))

/-- One-level expansion of an unwritten slot, used when a write steps into
it. -/
def expandIfZero (tenv : TypeEnv) : DVal → DVal
  | .dzero t =>
    match t with
    | .tstring => .dstring ""
    | .tint => .dint 0
    | .tfloat => .dfloat 0
    | .tbool => .dbool false
    | .tptr t => .dptr t none
    | .tslice t => .dzero (.tslice t)
    | .tmap k v => .dzero (.tmap k v)
    | .tstruct fs => .dstruct (fs.map fun f => (f.1, DVal.dzero f.2))
    | .tnamed n => .dstruct ((envFields tenv n).map fun f => (f.1, DVal.dzero f.2))
  | v => v

/-- Path segments of an addressable location (`Field(i).Addr()`,
`Index(i).Addr()`, pointer dereference). -/
inductive Seg where
  | fld (i : Nat)
  | idx (i : Nat)
  | deref
deriving DecidableEq, Repr

inductive LBase where
  | root
  | cell (i : Nat)
deriving DecidableEq, Repr

/-- An addressable destination slot: a base allocation plus a path into it.
The base is either the caller's target or one of the fresh `reflect.New`
cells allocated for map keys/values. -/
structure Loc where
  base : LBase
  path : List Seg
deriving DecidableEq, Repr

def Loc.push (l : Loc) (s : Seg) : Loc := ⟨l.base, l.path ++ [s]⟩

def writeAt (tenv : TypeEnv) : DVal → List Seg → DVal → Option DVal
  | _, [], v => some v
  | cur, s :: ps, v =>
    match expandIfZero tenv cur, s with
    | .dstruct fs, .fld i =>
      match fs.get? i with
      | some f => (writeAt tenv f.2 ps v).map fun fv => .dstruct (fs.set i (f.1, fv))
      | none => none
    | .dslice t xs, .idx i =>
      match xs.get? i with
      | some x => (writeAt tenv x ps v).map fun xv => .dslice t (xs.set i xv)
      | none => none
    | .dptr t (some p), .deref => (writeAt tenv p ps v).map fun pv => .dptr t (some pv)
    | _, _ => none

def readAt (tenv : TypeEnv) : DVal → List Seg → Option DVal
  | v, [] => some v
  | v, s :: ps =>
    match expandIfZero tenv v, s with
    | .dstruct fs, .fld i => (fs.get? i).bind fun f => readAt tenv f.2 ps
    | .dslice _ xs, .idx i => (xs.get? i).bind fun x => readAt tenv x ps
    | .dptr _ (some p), .deref => readAt tenv p ps
    | _, _ => none

structure Heap where
  root : DVal
  cells : List DVal

/-- Write a value at a location.  A write along a nonexistent path is dropped;
the decoders only ever write along paths they have themselves allocated, so
this case is unreachable for them. -/
def Heap.write (tenv : TypeEnv) (h : Heap) (l : Loc) (v : DVal) : Heap :=
  match l.base with
  | .root => { h with root := (writeAt tenv h.root l.path v).getD h.root }
  | .cell i =>
    match h.cells.get? i with
    | some c => { h with cells := h.cells.set i ((writeAt tenv c l.path v).getD c) }
    | none => h

def Heap.read (tenv : TypeEnv) (h : Heap) (l : Loc) : Option DVal :=
  match l.base with
  | .root => readAt tenv h.root l.path
  | .cell i => (h.cells.get? i).bind fun c => readAt tenv c l.path

/-! ## Go conversion (`ConvertibleTo` / `Convert`)

The conversions possible between the runtime types a decoded YAML/JSON tree
can contain (`string`, `int`, `float64`, `bool`, `[]interface{}`,
`map[string]interface{}`) and the modelled destination types.  `tint` is Go's
plain `int`, so the `string → []byte/[]rune` conversions do not arise.
`int → string` is Go's rune conversion (invalid code points give U+FFFD);
`float64 → int` truncates toward zero. -/

def intToRuneString (n : Int) : String :=
  if 0 ≤ n ∧ (n < 0xD800 ∨ (0xE000 ≤ n ∧ n < 0x110000)) then
    ⟨[Char.ofNat n.toNat]⟩
  else "�"

def ratTrunc (q : Rat) : Int := if 0 ≤ q then ⌊q⌋ else ⌈q⌉

def convertGo : GoValue → GoType → Option DVal
  | .vstring s, .tstring => some (.dstring s)
  | .vint n, .tint => some (.dint n)
  | .vint n, .tfloat => some (.dfloat n)
  | .vint n, .tstring => some (.dstring (intToRuneString n))
  | .vfloat q, .tfloat => some (.dfloat q)
  | .vfloat q, .tint => some (.dint (ratTrunc q))
  | .vbool b, .tbool => some (.dbool b)
  | _, _ => none

/-! ## Tree accessor (`MapSource.getKeyFromMap`) -/

/-- Outcome of a computation that can panic. -/
inductive PRes (α : Type) where
  | panicked
  | ok (a : α)

/-- The descent loop of `getKeyFromMap`: one step per dot-segment of the
normalized key; as soon as the current value is not a mapping the result is
nil.  A missing key yields the nil interface, i.e. `vnull`. -/
def descendKey : List String → GoValue → GoValue
  | [], v => v
  | p :: ps, v =>
    match v with
    | .vmap es => descendKey ps ((List.lookup p es).getD .vnull)
    | _ => .vnull

/-- `MapSource.getKeyFromMap`.  The empty key returns the whole tree without
normalizing; otherwise the key is normalized (which can panic for the camel
convention) and the tree is descended segment by segment. -/
def getKeyFromMap (conv : Conv) (rootMap : List (String × GoValue)) (key : String) :
    PRes GoValue :=
  if key = "" then .ok (.vmap rootMap)
  else
    match normalizeConv conv key with
    | none => .panicked
    | some nk =>
      .ok (descendKey ((splitOn1 '.' nk.data).map fun l => (⟨l⟩ : String)) (.vmap rootMap))

/-! ## Structural equality for destination values (Go `==` on map keys) -/

mutual

def gotyBEq : GoType → GoType → Bool
  | .tstring, .tstring => true
  | .tint, .tint => true
  | .tfloat, .tfloat => true
  | .tbool, .tbool => true
  | .tptr a, .tptr b => gotyBEq a b
  | .tslice a, .tslice b => gotyBEq a b
  | .tmap a b, .tmap c d => gotyBEq a c && gotyBEq b d
  | .tstruct fs, .tstruct gs => gotyFieldsBEq fs gs
  | .tnamed a, .tnamed b => a == b
  | _, _ => false

def gotyFieldsBEq : List (String × GoType) → List (String × GoType) → Bool
  | [], [] => true
  | (k, t) :: fs, (l, u) :: gs => k == l && gotyBEq t u && gotyFieldsBEq fs gs
  | _, _ => false

end

mutual

def dvalBEq : DVal → DVal → Bool
  | .dzero t, .dzero u => gotyBEq t u
  | .dstring a, .dstring b => a == b
  | .dint a, .dint b => a == b
  | .dfloat a, .dfloat b => a == b
  | .dbool a, .dbool b => a == b
  | .dptr t a, .dptr u b => gotyBEq t u && dvalOptBEq a b
  | .dslice t a, .dslice u b => gotyBEq t u && dvalListBEq a b
  | .dmap k v a, .dmap k2 v2 b => gotyBEq k k2 && gotyBEq v v2 && dvalPairsBEq a b
  | .dstruct a, .dstruct b => dvalFieldsBEq a b
  | _, _ => false

def dvalOptBEq : Option DVal → Option DVal → Bool
  | none, none => true
  | some a, some b => dvalBEq a b
  | _, _ => false

def dvalListBEq : List DVal → List DVal → Bool
  | [], [] => true
  | a :: xs, b :: ys => dvalBEq a b && dvalListBEq xs ys
  | _, _ => false

def dvalPairsBEq : List (DVal × DVal) → List (DVal × DVal) → Bool
  | [], [] => true
  | (a, c) :: xs, (b, d) :: ys => dvalBEq a b && dvalBEq c d && dvalPairsBEq xs ys
  | _, _ => false

def dvalFieldsBEq : List (String × DVal) → List (String × DVal) → Bool
  | [], [] => true
  | (k, a) :: xs, (l, b) :: ys => k == l && dvalBEq a b && dvalFieldsBEq xs ys
  | _, _ => false

end

/-- `Map.SetMapIndex`: replace the value of an existing key (Go `==` key
equality), else append the new entry. -/
def upsert (es : List (DVal × DVal)) (k v : DVal) : List (DVal × DVal) :=
  if es.any fun e => dvalBEq e.1 k then
    es.map fun e => if dvalBEq e.1 k then (k, v) else e
  else es ++ [(k, v)]

/-! ## Custom decoders (the `Reader` interface)

`ReadConfig` implementations are user code outside the repository; they are
modelled as an oracle.  Only named types can have methods, so only `tnamed`
targets can implement `Reader`.  The oracle receives exactly what the
framework passes: the map variant passes the restricted submapping source
`&MapSource{typ: s.typ, data: m}`, the flat variant passes
`PrefixSourceWith(item.key, s)`. -/

inductive ReaderArg where
  | sub (typ : String) (data : List (String × GoValue))
  | pfx (key : String)

structure Oracle where
  isReader : String → Bool
  run : String → ReaderArg → Option GoError

/-! ## Structural decoder, Map variant (`MapSource.readMapPrimitive`) -/

/-- Callback carried by a queue item (the closures of the map-entry
protocol): `setFlag e` is the key-item callback that flips entry `e`'s
`keyInitialized` flag; `commit e kc vc mloc` is the value-item callback that
commits `(cells[kc], cells[vc])` into the destination map at `mloc` if flag
`e` is set. -/
inductive CB where
  | setFlag (e : Nat)
  | commit (e : Nat) (kc : Nat) (vc : Nat) (mloc : Loc)

/-- Tags identifying the two callbacks of map entry `e` in the event log. -/
inductive CBTag where
  | keyOf (e : Nat)
  | valOf (e : Nat)
deriving DecidableEq, Repr

/-- Observable events of one traversal: an item is dequeued (with the tag of
its callback, if any), or a callback runs (recording the value of its
entry's flag at that moment). -/
inductive Ev where
  | deq (t : Option CBTag)
  | cb (t : CBTag) (flag : Bool)
deriving DecidableEq, Repr

def cbTag : Option CB → Option CBTag
  | none => none
  | some (.setFlag e) => some (.keyOf e)
  | some (.commit e _ _ _) => some (.valOf e)

/-- A decode work item of the map variant: a source value (`vnull` is the
invalid value), the destination slot, the slot's static type, and an
optional completion callback. -/
structure MapItem where
  src : GoValue
  tgt : Loc
  ty : GoType
  cb : Option CB

/-- Traversal state: the destination heap, the `keyInitialized` flags, the
FIFO work queue and the event log. -/
structure MSt where
  heap : Heap
  flags : List Bool
  queue : List MapItem
  log : List Ev

/-- Parameters fixed for one `readMapPrimitive` run: the named-type
environment, the custom-decoder oracle, and the receiver `MapSource`'s
source-kind tag and normalizer. -/
structure MParams where
  tenv : TypeEnv
  oracle : Oracle
  typ : String
  conv : Conv

/-- `item.complete()`: run the completion callback, if any.  The key-item
callback sets the entry flag; the value-item callback reads the flag and,
only when it is set, commits the decoded `(key, value)` cells into the
destination map.  Both append a `cb` event recording the flag value read. -/
def runCB (tenv : TypeEnv) (flags : List Bool) (h : Heap) (log : List Ev) :
    Option CB → List Bool × Heap × List Ev
  | none => (flags, h, log)
  | some (.setFlag e) =>
    (flags.set e true, h, log ++ [.cb (.keyOf e) (flags.getD e false)])
  | some (.commit e kc vc mloc) =>
    let fl := flags.getD e false
    let log := log ++ [.cb (.valOf e) fl]
    if fl then
      match h.read tenv mloc, h.cells.get? kc, h.cells.get? vc with
      | some (.dmap kt vt es), some kv, some vv =>
        (flags, h.write tenv mloc (.dmap kt vt (upsert es kv vv)), log)
      | _, _, _ => (flags, h, log)
    else (flags, h, log)

/-- The pointer-unwrapping loop: while the destination's static type is a
pointer, allocate a fresh zero pointee, point the slot at it, and descend. -/
def unwrapPtr (tenv : TypeEnv) (h : Heap) (tgt : Loc) : GoType → Heap × Loc × GoType
  | .tptr t =>
    unwrapPtr tenv (h.write tenv tgt (.dptr t (some (.dzero t)))) (tgt.push .deref) t
  | t => (h, tgt, t)

/-- Child items of the sequence case: one per index, no callback. -/
def sliceChildren (t : GoType) (tgt : Loc) : Nat → List GoValue → List MapItem
  | _, [] => []
  | i, x :: xs =>
    { src := x, tgt := tgt.push (.idx i), ty := t, cb := none } ::
      sliceChildren t tgt (i + 1) xs

/-- Child items of the mapping case: per source entry, a key item (callback
`setFlag`) immediately followed by a value item (callback `commit`), with a
fresh flag and two fresh cells per entry. -/
def mapEntryItems (kt vt : GoType) (tgt : Loc) (flag0 cell0 : Nat) :
    Nat → List (String × GoValue) → List MapItem
  | _, [] => []
  | j, (k, v) :: es =>
    { src := .vstring k, tgt := ⟨.cell (cell0 + 2 * j), []⟩, ty := kt,
      cb := some (.setFlag (flag0 + j)) } ::
    { src := v, tgt := ⟨.cell (cell0 + 2 * j + 1), []⟩, ty := vt,
      cb := some (.commit (flag0 + j) (cell0 + 2 * j) (cell0 + 2 * j + 1) tgt) } ::
    mapEntryItems kt vt tgt flag0 cell0 (j + 1) es

/-- The fresh `reflect.New(keyType)` / `reflect.New(valueType)` cells for a
list of map entries, in allocation order. -/
def mapEntryCells (kt vt : GoType) : List (String × GoValue) → List DVal
  | [] => []
  | _ :: es => DVal.dzero kt :: DVal.dzero vt :: mapEntryCells kt vt es

/-- Child items of the record case: for each field with a nonempty logical
key, look the key up in the submapping (which normalizes the key and can
panic); a present (non-nil) child value yields one item.  `i` is the field
index (the destination slot). -/
def structChildren (conv : Conv) (m : List (String × GoValue)) (tgt : Loc) :
    Nat → List (String × GoType) → PRes (List MapItem)
  | _, [] => .ok []
  | i, (key, fty) :: fs =>
    if key = "" then structChildren conv m tgt (i + 1) fs
    else
      match getKeyFromMap conv m key with
      | .panicked => .panicked
      | .ok .vnull => structChildren conv m tgt (i + 1) fs
      | .ok v =>
        match structChildren conv m tgt (i + 1) fs with
        | .panicked => .panicked
        | .ok cs =>
          .ok ({ src := v, tgt := tgt.push (.fld i), ty := fty, cb := none } :: cs)

/-- Result of processing one queue item. -/
inductive StepOut where
  | cont (st : MSt)
  | fail (e : GoError)
  | panicked

/-- Process one dequeued item of `readMapPrimitive`: invalid-source drop,
pointer unwrapping, direct convertibility, then the kind switch (bool
coercion, sequence, mapping, record with custom-decoder preference,
permissive default).  `rest` is the remainder of the queue; children are
appended at the back (FIFO). -/
def mapStep (pr : MParams) (it : MapItem) (rest : List MapItem)
    (heap : Heap) (flags : List Bool) (log : List Ev) : StepOut :=
  let log := log ++ [.deq (cbTag it.cb)]
  -- if item.source.Kind() == reflect.Invalid { continue }
  match it.src with
  | .vnull => .cont ⟨heap, flags, rest, log⟩
  | _ =>
    let u := unwrapPtr pr.tenv heap it.tgt it.ty
    let heap := u.1
    let tgt := u.2.1
    let ty := u.2.2
    match convertGo it.src ty with
    | some dv =>
      -- direct convertibility: assign, complete, continue
      let heap := heap.write pr.tenv tgt dv
      let c := runCB pr.tenv flags heap log it.cb
      .cont ⟨c.2.1, c.1, rest, c.2.2⟩
    | none =>
      match ty, it.src with
      -- bool coercion
      | .tbool, .vstring s =>
        match parseBool s with
        | .error _ => .cont ⟨heap, flags, rest, log⟩
        | .ok b =>
          let heap := heap.write pr.tenv tgt (.dbool b)
          let c := runCB pr.tenv flags heap log it.cb
          .cont ⟨c.2.1, c.1, rest, c.2.2⟩
      | .tbool, .vfloat q =>
        let heap := heap.write pr.tenv tgt (.dbool (decide (0 < q)))
        let c := runCB pr.tenv flags heap log it.cb
        .cont ⟨c.2.1, c.1, rest, c.2.2⟩
      | .tbool, _ => .cont ⟨heap, flags, rest, log⟩
      -- sequence
      | .tslice t, .vslice xs =>
        let heap := heap.write pr.tenv tgt (.dslice t (xs.map fun _ => .dzero t))
        let c := runCB pr.tenv flags heap log it.cb
        .cont ⟨c.2.1, c.1, rest ++ sliceChildren t tgt 0 xs, c.2.2⟩
      | .tslice _, _ => .cont ⟨heap, flags, rest, log⟩
      -- mapping
      | .tmap kt vt, .vmap es =>
        let children := mapEntryItems kt vt tgt flags.length heap.cells.length 0 es
        let heap2 : Heap := ⟨heap.root, heap.cells ++ mapEntryCells kt vt es⟩
        let heap3 := heap2.write pr.tenv tgt (.dmap kt vt [])
        let flags2 := flags ++ es.map fun _ => false
        let c := runCB pr.tenv flags2 heap3 log it.cb
        .cont ⟨c.2.1, c.1, rest ++ children, c.2.2⟩
      | .tmap _ _, _ => .cont ⟨heap, flags, rest, log⟩
      -- record: custom decoder preferred, else per-field traversal
      | .tnamed n, .vmap es =>
        if pr.oracle.isReader n then
          match pr.oracle.run n (.sub pr.typ es) with
          | some e => .fail e
          | none =>
            let c := runCB pr.tenv flags heap log it.cb
            .cont ⟨c.2.1, c.1, rest, c.2.2⟩
        else
          match structChildren pr.conv es tgt 0 (envFields pr.tenv n) with
          | .panicked => .panicked
          | .ok cs =>
            let c := runCB pr.tenv flags heap log it.cb
            .cont ⟨c.2.1, c.1, rest ++ cs, c.2.2⟩
      | .tstruct fs, .vmap es =>
        match structChildren pr.conv es tgt 0 fs with
        | .panicked => .panicked
        | .ok cs =>
          let c := runCB pr.tenv flags heap log it.cb
          .cont ⟨c.2.1, c.1, rest ++ cs, c.2.2⟩
      | .tnamed _, _ => .cont ⟨heap, flags, rest, log⟩
      | .tstruct _, _ => .cont ⟨heap, flags, rest, log⟩
      -- unsupported destination kind: skip silently
      | _, _ => .cont ⟨heap, flags, rest, log⟩

/-- Outcome of a full `readMapPrimitive` run.  `oom` means the fuel ran out
(used to reason about termination; enough fuel is always available, see the
termination theorems). -/
inductive MapOut where
  | oom
  | panicked
  | fail (e : GoError)
  | done (st : MSt)

/-- The FIFO work loop of `readMapPrimitive`, fuelled. -/
def mapRun (pr : MParams) : Nat → MSt → MapOut
  | n, st =>
    match st.queue with
    | [] => .done st
    | it :: rest =>
      match n with
      | 0 => .oom
      | m + 1 =>
        match mapStep pr it rest st.heap st.flags st.log with
        | .cont st2 => mapRun pr m st2
        | .fail e => .fail e
        | .panicked => .panicked

/-! ## Map-variant sources (`MapSource`, `NewYAMLSource`, `NewJSONSource`) -/

/-- A constructed `MapSource`: source-kind tag, decoded tree, and the
normalizer bound at construction. -/
structure MapSource where
  typ : String
  data : List (String × GoValue)
  conv : Conv

/-- The decode target argument as the `Read`/`ReadKey` entry points see it:
a non-nil pointer to a slot of static type `t`, or an invalid target. -/
inductive Tgt where
  | valid (t : GoType)
  | notPtr
  | nilPtr

/-! Fuel for the fuelled work loop.  `gsize` measures a source tree, `tsize`
a type, `tesize` a type environment.  `itemPot`/`queuePot` form a potential
that strictly decreases at every step of the map-variant loop whenever the
bound `B` dominates the field count of every reachable struct type (proved in
the termination section), so `mapFuel` — which uses the bound
`tsize t + tesize tenv` — is always enough fuel. -/

mutual

def gsize : GoValue → Nat
  | .vnull => 1
  | .vstring _ => 1
  | .vint _ => 1
  | .vfloat _ => 1
  | .vbool _ => 1
  | .vslice xs => 1 + gsizeL xs
  | .vmap es => 1 + gsizeM es

def gsizeL : List GoValue → Nat
  | [] => 0
  | x :: xs => gsize x + gsizeL xs

def gsizeM : List (String × GoValue) → Nat
  | [] => 0
  | (_, v) :: es => 1 + gsize v + gsizeM es

end

mutual

def tsize : GoType → Nat
  | .tptr t => 1 + tsize t
  | .tslice t => 1 + tsize t
  | .tmap k v => 1 + tsize k + tsize v
  | .tstruct fs => 1 + tsizeL fs
  | .tstring => 1
  | .tint => 1
  | .tfloat => 1
  | .tbool => 1
  | .tnamed _ => 1

def tsizeL : List (String × GoType) → Nat
  | [] => 0
  | (_, t) :: fs => 1 + tsize t + tsizeL fs

end

def tesize : TypeEnv → Nat
  | [] => 0
  | (_, fs) :: rest => 1 + tsizeL fs + tesize rest

def itemPot (B : Nat) (it : MapItem) : Nat :=
  (B + 2 * gsize it.src + 1) ^ gsize it.src

def queuePot (B : Nat) (q : List MapItem) : Nat := (q.map (itemPot B)).sum

def mapFuel (tenv : TypeEnv) (t : GoType) (v : GoValue) : Nat :=
  (tsize t + tesize tenv + 2 * gsize v + 1) ^ gsize v

/-- `MapSource.ReadKey`: target validity check, root lookup via the tree
accessor, then the full traversal. -/
def MapSource.ReadKey (orc : Oracle) (tenv : TypeEnv) (s : MapSource) (key : String)
    (tg : Tgt) : MapOut :=
  match tg with
  | .notPtr => .fail .invalidTarget
  | .nilPtr => .fail .invalidTarget
  | .valid t =>
    match getKeyFromMap s.conv s.data key with
    | .panicked => .panicked
    | .ok v =>
      mapRun ⟨tenv, orc, s.typ, s.conv⟩ (mapFuel tenv t v)
        ⟨⟨.dzero t, []⟩, [], [{ src := v, tgt := ⟨.root, []⟩, ty := t, cb := none }], []⟩

/-- `MapSource.Read`: additionally requires a struct target; the traversal
starts at the whole tree. -/
def MapSource.Read (orc : Oracle) (tenv : TypeEnv) (s : MapSource) (tg : Tgt) : MapOut :=
  match tg with
  | .notPtr => .fail .invalidTarget
  | .nilPtr => .fail .invalidTarget
  | .valid t =>
    if isStructKind t then
      mapRun ⟨tenv, orc, s.typ, s.conv⟩ (mapFuel tenv t (.vmap s.data))
        ⟨⟨.dzero t, []⟩, [],
          [{ src := .vmap s.data, tgt := ⟨.root, []⟩, ty := t, cb := none }], []⟩
    else .fail .invalidTarget

def NewYAMLSource (g : Gbl) (data : List (String × GoValue)) (convention : String) :
    Except GoError MapSource :=
  match NormalizerForSourceType g convention "yaml" with
  | .error e => .error e
  | .ok c => .ok ⟨"yaml", data, c⟩

def NewJSONSource (g : Gbl) (data : List (String × GoValue)) (convention : String) :
    Except GoError MapSource :=
  match NormalizerForSourceType g convention "json" with
  | .error e => .error e
  | .ok c => .ok ⟨"json", data, c⟩

/-- A caller that builds a map source and immediately reads a key: a
construction failure surfaces as the failure of the whole operation. -/
def readKeyBuilt (orc : Oracle) (tenv : TypeEnv) (m : Except GoError MapSource)
    (key : String) (tg : Tgt) : MapOut :=
  match m with
  | .error e => .fail e
  | .ok s => MapSource.ReadKey orc tenv s key tg

/-! ## External parsing collaborators: `strconv` and `encoding/json`

These model the standard-library functions the env decoder calls.  Width
overflow (`Atoi` is 64-bit) and the special `ParseFloat` spellings
(`inf`, `nan`, hex floats) are outside the fragment any claim touches and are
mapped to `strconvError`. -/

def isDigitCh (c : Char) : Bool := decide (48 ≤ c.toNat ∧ c.toNat ≤ 57)

def digitsToNat (l : List Char) : Nat := l.foldl (fun a c => a * 10 + (c.toNat - 48)) 0

/-- `strconv.Atoi`: optional sign, then one or more digits. -/
def goAtoi (s : String) : Except GoError Int :=
  let p : Int × List Char :=
    match s.data with
    | '-' :: t => (-1, t)
    | '+' :: t => (1, t)
    | t => (1, t)
  if p.2 ≠ [] ∧ p.2.all isDigitCh then .ok (p.1 * digitsToNat p.2)
  else .error .strconvError

def pow10Z (k : Int) : Rat :=
  if 0 ≤ k then ((10 : Rat) ^ k.toNat) else ((10 : Rat) ^ (-k).toNat)⁻¹

def span1 (p : Char → Bool) : List Char → List Char × List Char
  | [] => ([], [])
  | c :: cs =>
    if p c then
      let r := span1 p cs
      (c :: r.1, r.2)
    else ([], c :: cs)

/-- `strconv.ParseFloat` on the decimal grammar
`sign? digits* ('.' digits*)? ((e|E) sign? digits+)?` with at least one
mantissa digit. -/
def goParseFloat (s : String) : Except GoError Rat :=
  let p : Bool × List Char :=
    match s.data with
    | '-' :: t => (true, t)
    | '+' :: t => (false, t)
    | t => (false, t)
  let ip := span1 isDigitCh p.2
  let fr : List Char × List Char :=
    match ip.2 with
    | '.' :: t => let d := span1 isDigitCh t; (d.1, d.2)
    | t => ([], t)
  if ip.1 = [] ∧ fr.1 = [] then .error .strconvError
  else
    let mant : Rat := (digitsToNat (ip.1 ++ fr.1) : Rat) / (10 : Rat) ^ fr.1.length
    let mant := if p.1 then -mant else mant
    match fr.2 with
    | [] => .ok mant
    | 'e' :: t =>
      match (match t with | '-' :: u => (true, u) | '+' :: u => (false, u) | u => (false, u)) with
      | (en, ed) =>
        if ed ≠ [] ∧ ed.all isDigitCh then
          .ok (mant * pow10Z (if en then -(digitsToNat ed : Int) else (digitsToNat ed : Int)))
        else .error .strconvError
    | 'E' :: t =>
      match (match t with | '-' :: u => (true, u) | '+' :: u => (false, u) | u => (false, u)) with
      | (en, ed) =>
        if ed ≠ [] ∧ ed.all isDigitCh then
          .ok (mant * pow10Z (if en then -(digitsToNat ed : Int) else (digitsToNat ed : Int)))
        else .error .strconvError
    | _ => .error .strconvError

/-! ### A JSON value reader modelling `encoding/json.Unmarshal` into
`interface{}` (objects become `map[string]interface{}` with later duplicate
keys overwriting earlier ones, arrays `[]interface{}`, numbers `float64`,
`null` the nil interface). -/

def isWSCh (c : Char) : Bool :=
  decide (c.toNat = 32 ∨ c.toNat = 9 ∨ c.toNat = 10 ∨ c.toNat = 13)

def skipWS : List Char → List Char
  | [] => []
  | c :: cs => if isWSCh c then skipWS cs else c :: cs

def hexVal (c : Char) : Option Nat :=
  if 48 ≤ c.toNat ∧ c.toNat ≤ 57 then some (c.toNat - 48)
  else if 97 ≤ c.toNat ∧ c.toNat ≤ 102 then some (c.toNat - 87)
  else if 65 ≤ c.toNat ∧ c.toNat ≤ 70 then some (c.toNat - 55)
  else none

/-- Decode a `\uXXXX` escape (4 hex digits). -/
def hex4 : List Char → Option (Nat × List Char)
  | a :: b :: c :: d :: rest =>
    match hexVal a, hexVal b, hexVal c, hexVal d with
    | some x, some y, some z, some w => some (((x * 16 + y) * 16 + z) * 16 + w, rest)
    | _, _, _, _ => none
  | _ => none

/-- JSON string body after the opening quote, with the standard escapes;
surrogate pairs combine, lone surrogates become U+FFFD (as `encoding/json`
does); unescaped control characters are invalid. -/
def jsonStringChars : Nat → List Char → Except Unit (List Char × List Char)
  | 0, _ => .error ()
  | fuel + 1, l =>
    match l with
    | [] => .error ()
    | '"' :: rest => .ok ([], rest)
    | '\\' :: e :: rest =>
      let cont : Char → List Char → Except Unit (List Char × List Char) := fun c r =>
        (jsonStringChars fuel r).map fun p => (c :: p.1, p.2)
      match e with
      | '"' => cont '"' rest
      | '\\' => cont '\\' rest
      | '/' => cont '/' rest
      | 'b' => cont (Char.ofNat 8) rest
      | 'f' => cont (Char.ofNat 12) rest
      | 'n' => cont (Char.ofNat 10) rest
      | 'r' => cont (Char.ofNat 13) rest
      | 't' => cont (Char.ofNat 9) rest
      | 'u' =>
        match hex4 rest with
        | none => .error ()
        | some (n, rest2) =>
          if 0xD800 ≤ n ∧ n ≤ 0xDBFF then
            match rest2 with
            | '\\' :: 'u' :: rest3 =>
              match hex4 rest3 with
              | some (n2, rest4) =>
                if 0xDC00 ≤ n2 ∧ n2 ≤ 0xDFFF then
                  cont (Char.ofNat (0x10000 + (n - 0xD800) * 0x400 + (n2 - 0xDC00))) rest4
                else cont (Char.ofNat 0xFFFD) rest2
              | none => cont (Char.ofNat 0xFFFD) rest2
            | _ => cont (Char.ofNat 0xFFFD) rest2
          else if 0xDC00 ≤ n ∧ n ≤ 0xDFFF then cont (Char.ofNat 0xFFFD) rest2
          else cont (Char.ofNat n) rest2
      | _ => .error ()
    | c :: rest =>
      if c.toNat < 32 then .error ()
      else (jsonStringChars fuel rest).map fun p => (c :: p.1, p.2)

/-- JSON number: `-? int frac? exp?` with no leading zeros in the integer
part; the value is the exact decimal (`float64` is modelled as `Rat`). -/
def jsonNumber (l : List Char) : Except Unit (GoValue × List Char) :=
  let p : Bool × List Char :=
    match l with
    | '-' :: t => (true, t)
    | t => (false, t)
  let ip := span1 isDigitCh p.2
  let okInt : Bool :=
    match ip.1 with
    | [] => false
    | [_] => true
    | c :: _ => c ≠ '0'
  if okInt then
    let fr : Option (List Char × List Char) :=
      match ip.2 with
      | '.' :: t =>
        let d := span1 isDigitCh t
        if d.1 = [] then none else some (d.1, d.2)
      | t => some ([], t)
    match fr with
    | none => .error ()
    | some (fd, rest1) =>
      let ex : Option (Int × List Char) :=
        match rest1 with
        | 'e' :: t =>
          match (match t with | '-' :: u => (true, u) | '+' :: u => (false, u) | u => (false, u)) with
          | (en, ed) =>
            let d := span1 isDigitCh ed
            if d.1 = [] then none
            else some ((if en then -(digitsToNat d.1 : Int) else (digitsToNat d.1 : Int)), d.2)
        | 'E' :: t =>
          match (match t with | '-' :: u => (true, u) | '+' :: u => (false, u) | u => (false, u)) with
          | (en, ed) =>
            let d := span1 isDigitCh ed
            if d.1 = [] then none
            else some ((if en then -(digitsToNat d.1 : Int) else (digitsToNat d.1 : Int)), d.2)
        | t => some (0, t)
      match ex with
      | none => .error ()
      | some (e, rest2) =>
        let mant : Rat := (digitsToNat (ip.1 ++ fd) : Rat) / (10 : Rat) ^ fd.length
        let mant := if p.1 then -mant else mant
        .ok (.vfloat (mant * pow10Z e), rest2)
  else .error ()

/-- Prepend an object member to the members parsed after it; a duplicate of a
later key is dropped, because in Go's sequential `m[k] = v` assignments the
later value overwrites the earlier one. -/
def jsonInsert (es : List (String × GoValue)) (k : String) (v : GoValue) :
    List (String × GoValue) :=
  if es.any fun e => e.1 = k then es else (k, v) :: es

mutual

def jsonValue : Nat → List Char → Except Unit (GoValue × List Char)
  | 0, _ => .error ()
  | fuel + 1, l =>
    match skipWS l with
    | 'n' :: 'u' :: 'l' :: 'l' :: rest => .ok (.vnull, rest)
    | 't' :: 'r' :: 'u' :: 'e' :: rest => .ok (.vbool true, rest)
    | 'f' :: 'a' :: 'l' :: 's' :: 'e' :: rest => .ok (.vbool false, rest)
    | '"' :: rest =>
      (jsonStringChars (rest.length + 1) rest).map fun p => (.vstring ⟨p.1⟩, p.2)
    | '[' :: rest =>
      (match skipWS rest with
       | ']' :: rest2 => .ok (.vslice [], rest2)
       | rest2 => (jsonArrayItems fuel rest2).map fun p => (.vslice p.1, p.2))
    | '{' :: rest =>
      (match skipWS rest with
       | '}' :: rest2 => .ok (.vmap [], rest2)
       | rest2 => (jsonObjectItems fuel rest2).map fun p => (.vmap p.1, p.2))
    | l2 => jsonNumber l2
termination_by structural fuel => fuel

def jsonArrayItems : Nat → List Char → Except Unit (List GoValue × List Char)
  | 0, _ => .error ()
  | fuel + 1, l =>
    match jsonValue fuel l with
    | .error e => .error e
    | .ok (v, rest) =>
      match skipWS rest with
      | ',' :: rest2 => (jsonArrayItems fuel rest2).map fun p => (v :: p.1, p.2)
      | ']' :: rest2 => .ok ([v], rest2)
      | _ => .error ()
termination_by structural fuel => fuel

def jsonObjectItems : Nat → List Char → Except Unit (List (String × GoValue) × List Char)
  | 0, _ => .error ()
  | fuel + 1, l =>
    match skipWS l with
    | '"' :: rest =>
      match jsonStringChars (rest.length + 1) rest with
      | .error e => .error e
      | .ok (k, rest2) =>
        match skipWS rest2 with
        | ':' :: rest3 =>
          match jsonValue fuel rest3 with
          | .error e => .error e
          | .ok (v, rest4) =>
            match skipWS rest4 with
            | ',' :: rest5 =>
              (jsonObjectItems fuel rest5).map fun p => (jsonInsert p.1 ⟨k⟩ v, p.2)
            | '}' :: rest5 => .ok ([(⟨k⟩, v)], rest5)
            | _ => .error ()
        | _ => .error ()
    | _ => .error ()
termination_by structural fuel => fuel

end

/-- Parse a whole JSON document (a value plus trailing whitespace). -/
def jsonParse (s : String) : Except Unit GoValue :=
  match jsonValue (s.data.length + 1) s.data with
  | .error e => .error e
  | .ok (v, rest) => if skipWS rest = [] then .ok v else .error ()

/-! ## `json.Unmarshal` at the two target types the env decoder uses -/

/-- `json.Unmarshal(value, &data)` with `data : []interface{}`: an array
decodes to its elements, `null` leaves `data` nil (indistinguishable from an
empty slice for the traversal), anything else is an `UnmarshalTypeError`. -/
def unmarshalIfaceSlice (s : String) : Except GoError GoValue :=
  match jsonParse s with
  | .error _ => .error .jsonError
  | .ok .vnull => .ok (.vslice [])
  | .ok (.vslice xs) => .ok (.vslice xs)
  | .ok _ => .error .jsonError

/-- `json.Unmarshal(value, &data)` with `data : map[interface{}]interface{}`.
Per the `encoding/json` documentation, a JSON object can only be unmarshalled
into a map whose key type is a string type, an integer type, or implements
`encoding.TextUnmarshaler`; `interface{}` is none of these, so *every* JSON
object is an `UnmarshalTypeError` here.  Any other non-null JSON value is a
type mismatch too; only `null` succeeds, leaving `data` nil (which the
traversal then ranges over as an empty map). -/
def unmarshalIfaceMap (s : String) : Except GoError GoValue :=
  match jsonParse s with
  | .error _ => .error .jsonError
  | .ok .vnull => .ok (.vmap [])
  | .ok _ => .error .jsonError

/-! ## Structural decoder, Flat variant (`EnvSource`) -/

/-- A constructed `EnvSource` holds only its normalizer. -/
structure EnvSource where
  conv : Conv

/-- Parameters of one env traversal: named types, custom-decoder oracle,
process globals, and the source's normalizer. -/
structure EParams where
  tenv : TypeEnv
  oracle : Oracle
  g : Gbl
  conv : Conv

/-- A flat-variant work item: a synthesized dotted logical key, the
destination slot, and its static type. -/
structure EnvItem where
  key : String
  tgt : Loc
  ty : GoType

structure ESt where
  heap : Heap
  queue : List EnvItem

/-- Go `strings.TrimSpace` (ASCII whitespace). -/
def isSpaceGo (c : Char) : Bool :=
  decide (c.toNat = 32 ∨ c.toNat = 9 ∨ c.toNat = 10 ∨ c.toNat = 11 ∨
    c.toNat = 12 ∨ c.toNat = 13)

def trimSpace (s : String) : String :=
  ⟨((s.data.dropWhile isSpaceGo).reverse.dropWhile isSpaceGo).reverse⟩

/-- `EnvSource.readEnvKey`: normalize (can panic for the camel convention),
then `os.Getenv`. -/
def readEnvKey (pr : EParams) (key : String) : PRes String :=
  match normalizeConv pr.conv key with
  | none => .panicked
  | some k => .ok (pr.g.getenv k)

/-- Outcome of `readEnvPrimitive`/`readEnvSlice`: success or error (each with
the heap as written so far; Go's writes through reflect pointers persist even
when an error is returned), or a panic, or nested-run fuel exhaustion (which
never actually occurs, see the termination theorems). -/
inductive PrimOut where
  | ok (h : Heap)
  | err (e : GoError) (h : Heap)
  | panicked
  | oom

/-- `EnvSource.readEnvPrimitive`: the kind switch on the destination.
Strings always assign; numbers and booleans parse; a mapping destination
parses the raw string as JSON into `map[interface{}]interface{}` (see
`unmarshalIfaceMap` — this fails for every JSON object) and on success runs
the map decoder over it through a fresh JSON source; everything else is
"unsupported target type". -/
def readEnvPrimitive (pr : EParams) (value : String) (heap : Heap) (tgt : Loc) :
    GoType → PrimOut
  | .tstring => .ok (heap.write pr.tenv tgt (.dstring value))
  | .tint =>
    match goAtoi value with
    | .error e => .err e heap
    | .ok n => .ok (heap.write pr.tenv tgt (.dint n))
  | .tfloat =>
    match goParseFloat value with
    | .error e => .err e heap
    | .ok q => .ok (heap.write pr.tenv tgt (.dfloat q))
  | .tbool =>
    match parseBool value with
    | .error e => .err e heap
    | .ok b => .ok (heap.write pr.tenv tgt (.dbool b))
  | .tmap kt vt =>
    match unmarshalIfaceMap value with
    | .error e => .err e heap
    | .ok data =>
      match NewJSONSource pr.g [] "" with
      | .error e => .err e heap
      | .ok js =>
        match mapRun ⟨pr.tenv, pr.oracle, js.typ, js.conv⟩
            (mapFuel pr.tenv (.tmap kt vt) data)
            ⟨heap, [], [{ src := data, tgt := tgt, ty := .tmap kt vt, cb := none }], []⟩ with
        | .done st => .ok st.heap
        | .fail e => .err e heap
        | .panicked => .panicked
        | .oom => .oom
  | _ => .err .unsupportedTarget heap

/-- Result of the per-element loop of the comma-separated slice path. -/
inductive SliceLoopOut where
  | ok (h : Heap) (vals : List DVal)
  | panicked
  | oom

/-- The element loop of `readEnvSlice`'s default path: each piece gets a
fresh `reflect.New(elemType)` cell, is decoded as a primitive, zeroed on
failure, and the cell's value is copied into the new slice. -/
def envSliceLoop (pr : EParams) (t : GoType) : Heap → List String → SliceLoopOut
  | h, [] => .ok h []
  | h, v :: vs =>
    let ci := h.cells.length
    let h1 : Heap := ⟨h.root, h.cells ++ [.dzero t]⟩
    match readEnvPrimitive pr v h1 ⟨.cell ci, []⟩ t with
    | .ok h2 =>
      let val := (h2.cells.get? ci).getD (.dzero t)
      match envSliceLoop pr t h2 vs with
      | .ok h3 vals => .ok h3 (val :: vals)
      | .panicked => .panicked
      | .oom => .oom
    | .err _ h2 =>
      let h3 := h2.write pr.tenv ⟨.cell ci, []⟩ (.dzero t)
      match envSliceLoop pr t h3 vs with
      | .ok h4 vals => .ok h4 (.dzero t :: vals)
      | .panicked => .panicked
      | .oom => .oom
    | .panicked => .panicked
    | .oom => .oom

/-- `EnvSource.readEnvSlice`: an empty value yields an empty slice; an
element type of struct or slice kind parses the whole value as a JSON array
and hands it to the map decoder (JSON errors are *returned*, not absorbed);
otherwise the value is split on commas, each piece trimmed and decoded
independently with per-element failures zeroed. -/
def readEnvSlice (pr : EParams) (value : String) (heap : Heap) (tgt : Loc)
    (t : GoType) : PrimOut :=
  if value = "" then .ok (heap.write pr.tenv tgt (.dslice t []))
  else
    match t with
    | .tstruct _ | .tnamed _ | .tslice _ =>
      match unmarshalIfaceSlice value with
      | .error e => .err e heap
      | .ok data =>
        match NewJSONSource pr.g [] "" with
        | .error e => .err e heap
        | .ok js =>
          match mapRun ⟨pr.tenv, pr.oracle, js.typ, js.conv⟩
              (mapFuel pr.tenv (.tslice t) data)
              ⟨heap, [], [{ src := data, tgt := tgt, ty := .tslice t, cb := none }], []⟩ with
          | .done st => .ok st.heap
          | .fail e => .err e heap
          | .panicked => .panicked
          | .oom => .oom
    | _ =>
      let pieces := (splitOn1 ',' value.data).map fun l => trimSpace ⟨l⟩
      match envSliceLoop pr t heap pieces with
      | .ok h vals => .ok (h.write pr.tenv tgt (.dslice t vals))
      | .panicked => .panicked
      | .oom => .oom

/-- Children of a record item: one item per field with a nonempty logical
key; the child key is the dotted concatenation of the parent key and the
field key (just the field key at the root). -/
def envStructChildren (tgt : Loc) (pkey : String) : Nat → List (String × GoType) → List EnvItem
  | _, [] => []
  | i, (key, fty) :: fs =>
    if key = "" then envStructChildren tgt pkey (i + 1) fs
    else
      { key := if pkey = "" then key else pkey ++ "." ++ key,
        tgt := tgt.push (.fld i), ty := fty } ::
        envStructChildren tgt pkey (i + 1) fs

inductive EStepOut where
  | cont (st : ESt)
  | fail (e : GoError)
  | panicked
  | oom

/-- Process one dequeued item of `EnvSource.readKey`: pointer unwrapping,
then the kind switch (slice — whose errors are returned; struct — custom
decoder preferred, else unconditional per-field enqueue; default — primitive
decode with errors absorbed). -/
def envStep (pr : EParams) (it : EnvItem) (rest : List EnvItem) (heap : Heap) : EStepOut :=
  let u := unwrapPtr pr.tenv heap it.tgt it.ty
  let heap := u.1
  let tgt := u.2.1
  let ty := u.2.2
  match ty with
  | .tslice t =>
    match readEnvKey pr it.key with
    | .panicked => .panicked
    | .ok raw =>
      match readEnvSlice pr (trimSpace raw) heap tgt t with
      | .ok h => .cont ⟨h, rest⟩
      | .err e _ => .fail e
      | .panicked => .panicked
      | .oom => .oom
  | .tnamed n =>
    if pr.oracle.isReader n then
      match pr.oracle.run n (.pfx it.key) with
      | some e => .fail e
      | none => .cont ⟨heap, rest⟩
    else .cont ⟨heap, rest ++ envStructChildren tgt it.key 0 (envFields pr.tenv n)⟩
  | .tstruct fs => .cont ⟨heap, rest ++ envStructChildren tgt it.key 0 fs⟩
  | _ =>
    match readEnvKey pr it.key with
    | .panicked => .panicked
    | .ok value =>
      match readEnvPrimitive pr value heap tgt ty with
      | .ok h => .cont ⟨h, rest⟩
      | .err _ h => .cont ⟨h, rest⟩
      | .panicked => .panicked
      | .oom => .oom

inductive EnvOut where
  | oom
  | panicked
  | fail (e : GoError)
  | done (st : ESt)

/-- The FIFO work loop of `EnvSource.readKey`, fuelled.  Unlike the map
variant, no finite fuel works for every input: the loop genuinely diverges on
recursive record types (see the termination section). -/
def envRun (pr : EParams) : Nat → ESt → EnvOut
  | n, st =>
    match st.queue with
    | [] => .done st
    | it :: rest =>
      match n with
      | 0 => .oom
      | m + 1 =>
        match envStep pr it rest st.heap with
        | .cont st2 => envRun pr m st2
        | .fail e => .fail e
        | .panicked => .panicked
        | .oom => .oom

/-- `EnvSource.ReadKey` with explicit fuel for the work loop. -/
def EnvSource.ReadKey (pr : EParams) (fuel : Nat) (key : String) (tg : Tgt) : EnvOut :=
  match tg with
  | .notPtr => .fail .invalidTarget
  | .nilPtr => .fail .invalidTarget
  | .valid t =>
    envRun pr fuel ⟨⟨.dzero t, []⟩, [{ key := key, tgt := ⟨.root, []⟩, ty := t }]⟩

/-- `EnvSource.ReadKey` with the fuel that provably suffices for every target
type free of named-struct references. -/
def EnvSource.ReadKeyB (pr : EParams) (key : String) (tg : Tgt) : EnvOut :=
  match tg with
  | .valid t => EnvSource.ReadKey pr (tsize t) key tg
  | _ => EnvSource.ReadKey pr 0 key tg

/-- `EnvSource.Read` (struct targets only), with explicit fuel. -/
def EnvSource.Read (pr : EParams) (fuel : Nat) (tg : Tgt) : EnvOut :=
  match tg with
  | .notPtr => .fail .invalidTarget
  | .nilPtr => .fail .invalidTarget
  | .valid t =>
    if isStructKind t then
      envRun pr fuel ⟨⟨.dzero t, []⟩, [{ key := "", tgt := ⟨.root, []⟩, ty := t }]⟩
    else .fail .invalidTarget

/-- `NewEnvSource` (the `godotenv` loading of `BuildEnvSource` is an excluded
collaborator; construction resolves the normalizer). -/
def NewEnvSource (g : Gbl) (convention : String) : Except GoError EnvSource :=
  match NormalizerForSourceType g convention "env" with
  | .error e => .error e
  | .ok c => .ok ⟨c⟩

/-- Build an env source and immediately read a key. -/
def readKeyBuiltEnv (tenv : TypeEnv) (orc : Oracle) (g : Gbl)
    (m : Except GoError EnvSource) (fuel : Nat) (key : String) (tg : Tgt) : EnvOut :=
  match m with
  | .error e => .fail e
  | .ok s => EnvSource.ReadKey ⟨tenv, orc, g, s.conv⟩ fuel key tg

/-! # Supporting lemmas

## Character lemmas -/

theorem toNat_ofNat_lt {n : Nat} (h : n < 55296) : (Char.ofNat n).toNat = n := by
  rw [Char.ofNat, dif_pos (Or.inl h)]
  rfl

theorem asciiLower_toNat_of_upper {c : Char} (h : 65 ≤ c.toNat ∧ c.toNat ≤ 90) :
    (asciiLower c).toNat = c.toNat + 32 := by
  rw [asciiLower, if_pos h]
  exact toNat_ofNat_lt (by omega)

theorem asciiLower_of_not_upper {c : Char} (h : ¬(65 ≤ c.toNat ∧ c.toNat ≤ 90)) :
    asciiLower c = c := by
  rw [asciiLower, if_neg h]

theorem isUpperAZ_asciiLower (c : Char) : isUpperAZ (asciiLower c) = false := by
  by_cases h : 65 ≤ c.toNat ∧ c.toNat ≤ 90
  · have := asciiLower_toNat_of_upper h
    simp only [isUpperAZ, decide_eq_false_iff_not]
    omega
  · rw [asciiLower_of_not_upper h]
    simpa only [isUpperAZ, decide_eq_false_iff_not] using h

theorem asciiLower_idem (c : Char) : asciiLower (asciiLower c) = asciiLower c := by
  apply asciiLower_of_not_upper
  have := isUpperAZ_asciiLower c
  simp only [isUpperAZ, decide_eq_false_iff_not] at this
  exact this

theorem asciiUpper_toNat_of_lower {c : Char} (h : 97 ≤ c.toNat ∧ c.toNat ≤ 122) :
    (asciiUpper c).toNat = c.toNat - 32 := by
  rw [asciiUpper, if_pos h]
  exact toNat_ofNat_lt (by omega)

theorem asciiUpper_of_not_lower {c : Char} (h : ¬(97 ≤ c.toNat ∧ c.toNat ≤ 122)) :
    asciiUpper c = c := by
  rw [asciiUpper, if_neg h]

theorem isLowerAZ_asciiUpper (c : Char) : isLowerAZ (asciiUpper c) = false := by
  by_cases h : 97 ≤ c.toNat ∧ c.toNat ≤ 122
  · have := asciiUpper_toNat_of_lower h
    simp only [isLowerAZ, decide_eq_false_iff_not]
    omega
  · rw [asciiUpper_of_not_lower h]
    simpa only [isLowerAZ, decide_eq_false_iff_not] using h

theorem isDigit_asciiUpper {c : Char} (h : ¬(48 ≤ c.toNat ∧ c.toNat ≤ 57)) :
    ¬(48 ≤ (asciiUpper c).toNat ∧ (asciiUpper c).toNat ≤ 57) := by
  by_cases hl : 97 ≤ c.toNat ∧ c.toNat ≤ 122
  · have := asciiUpper_toNat_of_lower hl
    omega
  · rw [asciiUpper_of_not_lower hl]
    exact h

theorem asciiUpper_ne_dot (c : Char) (h : c ≠ '.') : asciiUpper c ≠ '.' := by
  by_cases hl : 97 ≤ c.toNat ∧ c.toNat ≤ 122
  · have h2 := asciiUpper_toNat_of_lower hl
    intro he
    have h46 : (asciiUpper c).toNat = 46 := by rw [he]; rfl
    omega
  · rwa [asciiUpper_of_not_lower hl]

theorem asciiLower_ne_dot (c : Char) (h : c ≠ '.') : asciiLower c ≠ '.' := by
  by_cases hu : 65 ≤ c.toNat ∧ c.toNat ≤ 90
  · have h2 := asciiLower_toNat_of_upper hu
    intro he
    have h46 : (asciiLower c).toNat = 46 := by rw [he]; rfl
    omega
  · rwa [asciiLower_of_not_upper hu]

/-! ## C4: `parseBool` grammar -/

/-- C4: `parseBool` maps exactly the strings `1`, `yes`, `on` in any letter
case to `true`, exactly `0`, `no`, `off` in any letter case to `false`, and
fails with `InvalidBooleanError` on every other input — in particular on
`"true"` and `"false"`. -/
theorem C4_parseBool_grammar (s : String) :
    (parseBool s = .ok true ↔ (lowerStr s = "1" ∨ lowerStr s = "yes" ∨ lowerStr s = "on"))
    ∧ (parseBool s = .ok false ↔ (lowerStr s = "0" ∨ lowerStr s = "no" ∨ lowerStr s = "off"))
    ∧ (parseBool s = .error .invalidBoolean ↔
        ¬((lowerStr s = "1" ∨ lowerStr s = "yes" ∨ lowerStr s = "on") ∨
          (lowerStr s = "0" ∨ lowerStr s = "no" ∨ lowerStr s = "off")))
    ∧ parseBool "true" = .error .invalidBoolean
    ∧ parseBool "false" = .error .invalidBoolean := by
  by_cases hA : (lowerStr s = "1" ∨ lowerStr s = "yes" ∨ lowerStr s = "on")
  · have hp : parseBool s = .ok true := by simp [parseBool, hA]
    have hnB : ¬(lowerStr s = "0" ∨ lowerStr s = "no" ∨ lowerStr s = "off") := by
      rcases hA with h | h | h <;> rw [h] <;> decide
    exact ⟨by simp [hp, hA], by simp [hp, hnB], by simp [hp, hA], rfl, rfl⟩
  · by_cases hB : (lowerStr s = "0" ∨ lowerStr s = "no" ∨ lowerStr s = "off")
    · have hp : parseBool s = .ok false := by
        simp only [parseBool]
        rw [if_neg hA, if_pos hB]
      exact ⟨by simp [hp, hA], by simp [hp, hB], by simp [hp, hB], rfl, rfl⟩
    · have hp : parseBool s = .error .invalidBoolean := by
        simp only [parseBool]
        rw [if_neg hA, if_neg hB]
      refine ⟨?_, ?_, ?_, rfl, rfl⟩
      · simp only [hp]
        constructor
        · intro h
          exact absurd h (by simp)
        · intro h
          exact absurd h hA
      · simp only [hp]
        constructor
        · intro h
          exact absurd h (by simp)
        · intro h
          exact absurd h hB
      · simp only [hp, true_iff]
        tauto

/-! ## Identity and membership lemmas for the regex replacements -/

theorem spanLower_append (l : List Char) : (spanLower l).1 ++ (spanLower l).2 = l := by
  induction l with
  | nil => rfl
  | cons c cs ih =>
    simp only [spanLower]
    split
    · simpa using ih
    · simp

theorem spanLower_fst_lower (l : List Char) : ∀ c ∈ (spanLower l).1, isLowerAZ c = true := by
  induction l with
  | nil => simp [spanLower]
  | cons c cs ih =>
    simp only [spanLower]
    split
    · rename_i h
      intro d hd
      rcases List.mem_cons.1 hd with rfl | hd2
      · exact h
      · exact ih d hd2
    · simp

theorem firstCapRepl_nil_pair (l : List Char)
    (hl : ∀ (c1 c2 c3 : Char) (rest : List Char), l = c1 :: c2 :: c3 :: rest → False) :
    firstCapRepl l = l := by
  cases l with
  | nil => rw [firstCapRepl.eq_def]
  | cons a t =>
    cases t with
    | nil => rw [firstCapRepl.eq_def]
    | cons b t2 =>
      cases t2 with
      | nil => rw [firstCapRepl.eq_def]
      | cons c r => exact (hl a b c r rfl).elim

theorem firstCapRepl_id_of_noUpper (l : List Char)
    (h : ∀ c ∈ l, isUpperAZ c = false) : firstCapRepl l = l := by
  induction l using firstCapRepl.induct with
  | case1 c1 c2 c3 rest hcond p ih =>
    exact absurd hcond.2.1 (by simp [h c2 (by simp)])
  | case2 c1 c2 c3 rest hcond ih =>
    rw [firstCapRepl, if_neg hcond, ih fun c hc => h c (by simp [hc])]
  | case3 l hl => exact firstCapRepl_nil_pair l hl

theorem firstCapRepl_id_of_noLower (l : List Char)
    (h : ∀ c ∈ l, isLowerAZ c = false) : firstCapRepl l = l := by
  induction l using firstCapRepl.induct with
  | case1 c1 c2 c3 rest hcond p ih =>
    exact absurd hcond.2.2 (by simp [h c3 (by simp)])
  | case2 c1 c2 c3 rest hcond ih =>
    rw [firstCapRepl, if_neg hcond, ih fun c hc => h c (by simp [hc])]
  | case3 l hl => exact firstCapRepl_nil_pair l hl

theorem allCapRepl_nil_single (l : List Char)
    (hl : ∀ (c1 c2 : Char) (rest : List Char), l = c1 :: c2 :: rest → False) :
    allCapRepl l = l := by
  cases l with
  | nil => rw [allCapRepl.eq_def]
  | cons a t =>
    cases t with
    | nil => rw [allCapRepl.eq_def]
    | cons b r => exact (hl a b r rfl).elim

theorem allCapRepl_id_of_noUpper (l : List Char)
    (h : ∀ c ∈ l, isUpperAZ c = false) : allCapRepl l = l := by
  induction l using allCapRepl.induct with
  | case1 c1 c2 rest hcond ih =>
    exact absurd hcond.2 (by simp [h c2 (by simp)])
  | case2 c1 c2 rest hcond ih =>
    rw [allCapRepl, if_neg hcond, ih fun c hc => h c (by simp [hc])]
  | case3 l hl => exact allCapRepl_nil_single l hl

theorem allCapRepl_id_of_noLowerDigit (l : List Char)
    (h : ∀ c ∈ l, isLowerOrDigit c = false) : allCapRepl l = l := by
  induction l using allCapRepl.induct with
  | case1 c1 c2 rest hcond ih =>
    exact absurd hcond.1 (by simp [h c1 (by simp)])
  | case2 c1 c2 rest hcond ih =>
    rw [allCapRepl, if_neg hcond, ih fun c hc => h c (by simp [hc])]
  | case3 l hl => exact allCapRepl_nil_single l hl

theorem mem_firstCapRepl {c : Char} {l : List Char} (hc : c ∈ firstCapRepl l) :
    c ∈ l ∨ c = '_' := by
  induction l using firstCapRepl.induct with
  | case1 c1 c2 c3 rest hcond p ih =>
    rw [firstCapRepl, if_pos hcond] at hc
    simp only [List.mem_cons, List.mem_append] at hc
    rcases hc with rfl | h2 | h3
    · exact .inl (by simp)
    · exact .inr h2
    · rcases h3 with rfl | h4 | h5
      · exact .inl (by simp)
      · -- c is in the lowercase run, which is a prefix of c3 :: rest
        left
        have : c ∈ (spanLower (c3 :: rest)).1 ++ (spanLower (c3 :: rest)).2 :=
          List.mem_append.2 (.inl h4)
        rw [spanLower_append] at this
        simp only [List.mem_cons] at this ⊢
        tauto
      · rcases ih h5 with h | h
        · left
          have : c ∈ (spanLower (c3 :: rest)).1 ++ (spanLower (c3 :: rest)).2 :=
            List.mem_append.2 (.inr h)
          rw [spanLower_append] at this
          simp only [List.mem_cons] at this ⊢
          tauto
        · exact .inr h
  | case2 c1 c2 c3 rest hcond ih =>
    rw [firstCapRepl, if_neg hcond] at hc
    rcases List.mem_cons.1 hc with rfl | h2
    · exact .inl (by simp)
    · rcases ih h2 with h | h
      · left
        simp only [List.mem_cons] at h ⊢
        tauto
      · exact .inr h
  | case3 l hl =>
    rw [firstCapRepl_nil_pair l hl] at hc
    exact .inl hc

theorem mem_allCapRepl {c : Char} {l : List Char} (hc : c ∈ allCapRepl l) :
    c ∈ l ∨ c = '_' := by
  induction l using allCapRepl.induct with
  | case1 c1 c2 rest hcond ih =>
    rw [allCapRepl, if_pos hcond] at hc
    simp only [List.mem_cons] at hc
    rcases hc with rfl | h | rfl | h
    · exact .inl (by simp)
    · exact .inr h
    · exact .inl (by simp)
    · rcases ih h with h2 | h2
      · left
        simp only [List.mem_cons] at h2 ⊢
        tauto
      · exact .inr h2
  | case2 c1 c2 rest hcond ih =>
    rw [allCapRepl, if_neg hcond] at hc
    rcases List.mem_cons.1 hc with rfl | h2
    · exact .inl (by simp)
    · rcases ih h2 with h | h
      · left
        simp only [List.mem_cons] at h ⊢
        tauto
      · exact .inr h
  | case3 l hl =>
    rw [allCapRepl_nil_single l hl] at hc
    exact .inl hc

theorem map_asciiLower_id_of_noUpper (l : List Char)
    (h : ∀ c ∈ l, isUpperAZ c = false) : l.map asciiLower = l := by
  induction l with
  | nil => rfl
  | cons c cs ih =>
    have hc := h c (by simp)
    simp only [isUpperAZ, decide_eq_false_iff_not] at hc
    simp only [List.map_cons, asciiLower_of_not_upper hc,
      ih fun d hd => h d (by simp [hd]), List.cons.injEq, and_self]

theorem map_asciiUpper_id_of_noLower (l : List Char)
    (h : ∀ c ∈ l, isLowerAZ c = false) : l.map asciiUpper = l := by
  induction l with
  | nil => rfl
  | cons c cs ih =>
    have hc := h c (by simp)
    simp only [isLowerAZ, decide_eq_false_iff_not] at hc
    simp only [List.map_cons, asciiUpper_of_not_lower hc,
      ih fun d hd => h d (by simp [hd]), List.cons.injEq, and_self]

/-! ## Split/join lemmas -/

theorem splitOn1_no_sep (sep : Char) (l : List Char) :
    ∀ p ∈ splitOn1 sep l, sep ∉ p := by
  induction l with
  | nil =>
    intro p hp
    simp only [splitOn1, List.mem_singleton] at hp
    simp [hp]
  | cons c cs ih =>
    intro p hp
    simp only [splitOn1] at hp
    split at hp
    · rcases List.mem_cons.1 hp with rfl | h2
      · simp
      · exact ih p h2
    · rename_i hne
      rcases he : splitOn1 sep cs with _ | ⟨h, t⟩
      · exact absurd he (splitOn1_ne_nil sep cs)
      · rw [he] at hp
        rcases List.mem_cons.1 hp with rfl | h2
        · intro hmem
          rcases List.mem_cons.1 hmem with rfl | h3
          · exact hne rfl
          · exact ih h (by simp [he]) h3
        · exact ih p (by simp [he, h2])

theorem splitOn1_eq_self (sep : Char) (l : List Char) (h : sep ∉ l) :
    splitOn1 sep l = [l] := by
  induction l with
  | nil => rfl
  | cons c cs ih =>
    simp only [List.mem_cons, not_or] at h
    simp only [splitOn1]
    rw [if_neg fun he => h.1 he.symm, ih h.2]

theorem splitOn1_append_sep (sep : Char) (p xs : List Char) (h : sep ∉ p) :
    splitOn1 sep (p ++ sep :: xs) = p :: splitOn1 sep xs := by
  induction p with
  | nil => simp [splitOn1]
  | cons c cs ih =>
    simp only [List.mem_cons, not_or] at h
    simp only [List.cons_append, List.append_eq, splitOn1]
    rw [if_neg fun he => h.1 he.symm, ih h.2]

theorem joinWith1_cons (sep : Char) (p : List Char) (q : List Char) (ps : List (List Char)) :
    joinWith1 sep (p :: q :: ps) = p ++ sep :: joinWith1 sep (q :: ps) := rfl

theorem split_join (sep : Char) (parts : List (List Char)) (hne : parts ≠ [])
    (h : ∀ p ∈ parts, sep ∉ p) :
    splitOn1 sep (joinWith1 sep parts) = parts := by
  induction parts with
  | nil => exact absurd rfl hne
  | cons p ps ih =>
    cases ps with
    | nil => exact splitOn1_eq_self sep p (h p (by simp))
    | cons q ps2 =>
      rw [joinWith1_cons, splitOn1_append_sep sep p _ (h p (by simp)),
        ih (by simp) fun r hr => h r (List.mem_cons.2 (.inr hr))]

theorem mem_splitOn1 (sep : Char) (l : List Char) :
    ∀ p ∈ splitOn1 sep l, ∀ c ∈ p, c ∈ l := by
  induction l with
  | nil =>
    intro p hp c hc
    simp only [splitOn1, List.mem_singleton] at hp
    subst hp
    simp at hc
  | cons a cs ih =>
    intro p hp c hc
    simp only [splitOn1] at hp
    split at hp
    · rcases List.mem_cons.1 hp with rfl | h2
      · simp at hc
      · exact List.mem_cons.2 (.inr (ih p h2 c hc))
    · rcases he : splitOn1 sep cs with _ | ⟨h, t⟩
      · exact absurd he (splitOn1_ne_nil sep cs)
      · rw [he] at hp
        rcases List.mem_cons.1 hp with rfl | h2
        · rcases List.mem_cons.1 hc with rfl | h3
          · simp
          · exact List.mem_cons.2 (.inr (ih h (by simp [he]) c h3))
        · exact List.mem_cons.2 (.inr (ih p (by simp [he, h2]) c hc))

theorem mem_joinWith1 (sep : Char) (ls : List (List Char)) :
    ∀ c ∈ joinWith1 sep ls, c = sep ∨ ∃ p ∈ ls, c ∈ p := by
  induction ls with
  | nil =>
    intro c hc
    simp [joinWith1] at hc
  | cons p ps ih =>
    cases ps with
    | nil =>
      intro c hc
      exact .inr ⟨p, by simp, hc⟩
    | cons q ps2 =>
      intro c hc
      rw [joinWith1_cons] at hc
      rcases List.mem_append.1 hc with h | h
      · exact .inr ⟨p, by simp, h⟩
      · rcases List.mem_cons.1 h with rfl | h2
        · exact .inl rfl
        · rcases ih c h2 with h3 | ⟨r, hr, hcr⟩
          · exact .inl h3
          · exact .inr ⟨r, by simp [hr], hcr⟩

/-! ## Equivalence of the two presentations of the first replacement -/

theorem firstCapScan_cons (b : Bool) (c1 : Char) (rest1 : List Char) :
    firstCapScan b (c1 :: rest1) =
      if b = true ∧ isLowerAZ c1 = true then c1 :: firstCapScan true rest1
      else
        match rest1 with
        | c2 :: c3 :: rest =>
          if c1 ≠ '\n' ∧ isUpperAZ c2 = true ∧ isLowerAZ c3 = true then
            c1 :: '_' :: c2 :: firstCapScan true (c3 :: rest)
          else c1 :: firstCapScan false (c2 :: c3 :: rest)
        | _ => c1 :: rest1 := by
  rw [firstCapScan.eq_def]

theorem firstCapScan_true_not_lower {c : Char} {cs : List Char} (h : isLowerAZ c = false) :
    firstCapScan true (c :: cs) = firstCapScan false (c :: cs) := by
  rw [firstCapScan_cons, firstCapScan_cons, if_neg (by simp [h]), if_neg (by simp)]

theorem firstCapScan_true_eq (l : List Char) :
    firstCapScan true l = (spanLower l).1 ++ firstCapScan false (spanLower l).2 := by
  induction l with
  | nil => rfl
  | cons c cs ih =>
    by_cases h : isLowerAZ c = true
    · simp only [spanLower, h, if_pos, List.cons_append]
      rw [firstCapScan_cons, if_pos (by simp [h]), ih]
    · have hf : isLowerAZ c = false := by simpa using h
      rw [firstCapScan_true_not_lower hf]
      simp only [spanLower, hf, Bool.false_eq_true, if_false, List.nil_append]

theorem firstCapScan_eq_repl (l : List Char) : firstCapScan false l = firstCapRepl l := by
  induction l using firstCapRepl.induct with
  | case1 c1 c2 c3 rest hcond p ih =>
    rw [firstCapRepl, if_pos hcond]
    rw [firstCapScan_cons, if_neg (by simp)]
    simp only
    rw [if_pos (by simpa using hcond), firstCapScan_true_eq, ih]
  | case2 c1 c2 c3 rest hcond ih =>
    rw [firstCapRepl, if_neg hcond]
    rw [firstCapScan_cons, if_neg (by simp)]
    simp only
    rw [if_neg (by simpa using hcond), ih]
  | case3 l hl =>
    rw [firstCapRepl_nil_pair l hl]
    cases l with
    | nil => rfl
    | cons a t =>
      cases t with
      | nil => rw [firstCapScan_cons, if_neg (by simp)]
      | cons b t2 =>
        cases t2 with
        | nil => rw [firstCapScan_cons, if_neg (by simp)]
        | cons c r => exact (hl a b c r rfl).elim

/-! ## Idempotence lemmas for the three normalizers (C9) -/

theorem camel_parts_idem (l : List (List Char)) :
    ∀ ps : List (List Char), (∀ p ∈ l, ('.' : Char) ∉ p) → lcfirstAll l = some ps →
      lcfirstAll ps = some ps ∧ (∀ p ∈ ps, ('.' : Char) ∉ p) ∧ ps.length = l.length := by
  induction l with
  | nil =>
    intro ps _ h
    simp only [lcfirstAll, Option.some.injEq] at h
    subst h
    simp [lcfirstAll]
  | cons q l ih =>
    intro ps hnd h
    cases q with
    | nil => simp [lcfirstAll, lcfirst] at h
    | cons c cs =>
      simp only [lcfirstAll, lcfirst] at h
      cases hm : lcfirstAll l with
      | none => rw [hm] at h; simp at h
      | some as2 =>
        rw [hm] at h
        simp only [Option.some.injEq] at h
        subst h
        have hq := hnd (c :: cs) (by simp)
        have hcdot : c ≠ '.' := fun he => hq (by simp [he])
        have hcsdot : ('.' : Char) ∉ cs := fun he => hq (by simp [he])
        obtain ⟨h1, h2, h3⟩ := ih as2 (fun p hp => hnd p (by simp [hp])) hm
        refine ⟨?_, ?_, by simp [h3]⟩
        · simp only [lcfirstAll, lcfirst, asciiLower_idem, h1]
        · intro p hp
          rcases List.mem_cons.1 hp with rfl | hp2
          · intro hmem
            rcases List.mem_cons.1 hmem with he | he
            · exact asciiLower_ne_dot c hcdot he.symm
            · exact hcsdot he
          · exact h2 p hp2

theorem splitOn1_length_pos (sep : Char) (l : List Char) : 0 < (splitOn1 sep l).length := by
  cases h : splitOn1 sep l with
  | nil => exact absurd h (splitOn1_ne_nil sep l)
  | cons a t => simp

/-- The amended C9: `normalize` is idempotent for the lower-snake convention
on every key, and for the camel convention on every key it is defined on; for
the upper-snake convention it is idempotent on digit-free keys, but not in
general (see the counterexample: a digit followed by an uppercase letter in
the normalized output gains an extra underscore on re-normalization). -/
theorem C9_normalize_idempotent_amended :
    (∀ k : String, snakeNormalize (snakeNormalize k) = snakeNormalize k)
    ∧ (∀ k r : String, camelNormalize k = some r → camelNormalize r = some r)
    ∧ (∀ k : String, (∀ c ∈ k.data, ¬(48 ≤ c.toNat ∧ c.toNat ≤ 57)) →
        upperSnakeNormalize (upperSnakeNormalize k) = upperSnakeNormalize k) := by
  refine ⟨?_, ?_, ?_⟩
  · -- lower-snake
    intro k
    have hnoU : ∀ c ∈ (allCapRepl (firstCapScan false k.data)).map asciiLower,
        isUpperAZ c = false := by
      intro c hc
      obtain ⟨d, _, rfl⟩ := List.mem_map.1 hc
      exact isUpperAZ_asciiLower d
    have h1 : snakeNormalize k =
        (⟨(allCapRepl (firstCapScan false k.data)).map asciiLower⟩ : String) := rfl
    rw [h1]
    show (⟨(allCapRepl (firstCapScan false
      ((allCapRepl (firstCapScan false k.data)).map asciiLower))).map asciiLower⟩ : String) = _
    rw [firstCapScan_eq_repl, firstCapRepl_id_of_noUpper _ hnoU,
      allCapRepl_id_of_noUpper _ hnoU, map_asciiLower_id_of_noUpper _ hnoU]
  · -- camel
    intro k r h
    have h2 : (lcfirstAll (splitOn1 '.' k.data)).map
        (fun ps => (⟨joinWith1 '.' ps⟩ : String)) = some r := h
    rw [Option.map_eq_some'] at h2
    obtain ⟨ps, hm, hr⟩ := h2
    obtain ⟨h1, hdot, hlen⟩ :=
      camel_parts_idem (splitOn1 '.' k.data) ps (splitOn1_no_sep '.' k.data) hm
    have hne : ps ≠ [] := by
      have := splitOn1_length_pos '.' k.data
      intro he
      rw [he] at hlen
      simp at hlen
      omega
    subst hr
    show (lcfirstAll (splitOn1 '.' (joinWith1 '.' ps))).map
        (fun qs => (⟨joinWith1 '.' qs⟩ : String)) = _
    rw [split_join '.' ps hne hdot, h1]
    rfl
  · -- upper-snake on digit-free keys
    intro k hdig
    have hparts : ∀ p ∈ splitOn1 '.' k.data, ('.' : Char) ∉ p := splitOn1_no_sep '.' k.data
    have hpdig : ∀ p ∈ splitOn1 '.' k.data, ∀ c ∈ p, ¬(48 ≤ c.toNat ∧ c.toNat ≤ 57) :=
      fun p hp c hc => hdig c (mem_splitOn1 '.' k.data p hp c hc)
    -- facts about the normalized character list
    have hL : ∀ c ∈ joinWith1 '_' ((splitOn1 '.' k.data).map
        (fun part => (allCapRepl (firstCapScan false part)).map asciiUpper)),
        isLowerAZ c = false ∧ ¬(48 ≤ c.toNat ∧ c.toNat ≤ 57) ∧ c ≠ '.' := by
      intro c hc
      rcases mem_joinWith1 '_' _ c hc with rfl | ⟨fp, hfp, hcf⟩
      · exact ⟨by decide, by decide, by decide⟩
      · obtain ⟨p, hp, rfl⟩ := List.mem_map.1 hfp
        obtain ⟨d, hd, rfl⟩ := List.mem_map.1 hcf
        rw [firstCapScan_eq_repl] at hd
        have hdp : d ∈ p ∨ d = '_' := mem_allCapRepl hd |>.elim
          (fun h2 => (mem_firstCapRepl h2).elim .inl .inr) .inr
        refine ⟨isLowerAZ_asciiUpper d, ?_, ?_⟩
        · rcases hdp with h2 | rfl
          · exact isDigit_asciiUpper (hpdig p hp d h2)
          · intro hcon
            have : asciiUpper '_' = '_' := by decide
            rw [this] at hcon
            exact absurd hcon (by decide)
        · rcases hdp with h2 | rfl
          · exact asciiUpper_ne_dot d fun he => hparts p hp (he ▸ h2)
          · have : asciiUpper '_' = '_' := by decide
            rw [this]
            decide
    set L := joinWith1 '_' ((splitOn1 '.' k.data).map
      (fun part => (allCapRepl (firstCapScan false part)).map asciiUpper)) with hLdef
    have h1 : upperSnakeNormalize k = (⟨L⟩ : String) := rfl
    rw [h1]
    show (⟨joinWith1 '_' ((splitOn1 '.' L).map
      (fun part => (allCapRepl (firstCapScan false part)).map asciiUpper))⟩ : String) = _
    have hnodot : ('.' : Char) ∉ L := fun hm => (hL '.' hm).2.2 rfl
    rw [splitOn1_eq_self '.' L hnodot]
    simp only [List.map_cons, List.map_nil]
    rw [firstCapScan_eq_repl,
      firstCapRepl_id_of_noLower L (fun c hc => (hL c hc).1),
      allCapRepl_id_of_noLowerDigit L (fun c hc => by
        have := hL c hc
        simp only [isLowerOrDigit, this.1, Bool.false_or, decide_eq_false_iff_not]
        exact this.2.1),
      map_asciiUpper_id_of_noLower L (fun c hc => (hL c hc).1)]
    rfl

/-- C9 counterexample: the upper-snake normalizer is not idempotent.
`normalize("a2b") = "A2B"`, but renormalizing that output inserts an
underscore between the digit and the uppercase letter: `normalize("A2B") =
"A2_B"`. -/
theorem C9_upper_snake_not_idempotent :
    upperSnakeNormalize "a2b" = "A2B" ∧ upperSnakeNormalize "A2B" = "A2_B" ∧
    upperSnakeNormalize (upperSnakeNormalize "a2b") ≠ upperSnakeNormalize "a2b" := by
  refine ⟨rfl, rfl, ?_⟩
  intro h
  have h2 : ("A2_B" : String) = "A2B" := h
  simp at h2

/-- Witness for the amended C9 at concrete inputs: camel on `"a.Bc"`
(defined, output `"a.bc"`, renormalizing is the identity) and upper-snake on
the digit-free `"database.host"`. -/
theorem C9_normalize_idempotent_amended_witness :
    camelNormalize "a.Bc" = some "a.bc" ∧ camelNormalize "a.bc" = some "a.bc" ∧
    upperSnakeNormalize (upperSnakeNormalize "database.host") =
      upperSnakeNormalize "database.host" := by
  refine ⟨rfl, ?_, ?_⟩
  · exact C9_normalize_idempotent_amended.2.1 "a.Bc" "a.bc" rfl
  · exact C9_normalize_idempotent_amended.2.2 "database.host" (by decide)

/-! ## C10: camel normalization panics and where `ReadKey` hits them -/

/-- A fixed trivial oracle (no struct type implements `Reader`) for concrete
runs. -/
def noReaders : Oracle := ⟨fun _ => false, fun _ _ => none⟩

/-- C10 counterexample: the claim says `ReadKey` on a camel-convention source
panics for the empty key, but `MapSource.ReadKey` short-circuits the empty
key in `getKeyFromMap` *before* normalizing, so it returns normally. -/
theorem C10_empty_key_readkey_no_panic :
    MapSource.ReadKey noReaders [] ⟨"json", [("a", .vstring "x")], .camel⟩ "" (.valid .tint) =
      .done ⟨⟨.dzero .tint, []⟩, [], [], [.deq none]⟩ ∧
    MapSource.ReadKey noReaders [] ⟨"json", [("a", .vstring "x")], .camel⟩ "" (.valid .tint) ≠
      .panicked := by
  refine ⟨rfl, ?_⟩
  intro h
  rw [show MapSource.ReadKey noReaders [] ⟨"json", [("a", .vstring "x")], .camel⟩ ""
      (.valid .tint) = .done ⟨⟨.dzero .tint, []⟩, [], [], [.deq none]⟩ from rfl] at h
  exact nomatch h

/-- The amended C10: camel `Normalize` is defined exactly on the keys whose
dot-segments are all nonempty and panics otherwise; `ReadKey` panics exactly
when such a key actually reaches the normalizer — on a map-variant source for
every *nonempty* undefined key, and on a flat-variant source whenever the
undefined key is looked up for a primitive-kind destination — while the empty
key on a map-variant source is returned without normalization. -/
theorem C10_camel_panic_amended :
    (∀ k : String, (∀ p ∈ splitOn1 '.' k.data, p ≠ []) ↔ ∃ r, camelNormalize k = some r)
    ∧ (∀ (orc : Oracle) (tenv : TypeEnv) (typ : String)
        (data : List (String × GoValue)) (key : String) (t : GoType),
        key ≠ "" → camelNormalize key = none →
        MapSource.ReadKey orc tenv ⟨typ, data, .camel⟩ key (.valid t) = .panicked)
    ∧ (∀ (tenv : TypeEnv) (orc : Oracle) (g : Gbl) (fuel : Nat) (key : String) (t : GoType),
        camelNormalize key = none → isStructKind t = false →
        (∀ u : GoType, t ≠ .tptr u) → 0 < fuel →
        EnvSource.ReadKey ⟨tenv, orc, g, .camel⟩ fuel key (.valid t) = .panicked) := by
  refine ⟨?_, ?_, ?_⟩
  · intro k
    constructor
    · intro h
      -- every segment nonempty means every lcfirst succeeds
      suffices hs : ∀ l : List (List Char), (∀ p ∈ l, p ≠ []) →
          ∃ qs, lcfirstAll l = some qs by
        obtain ⟨qs, hqs⟩ := hs (splitOn1 '.' k.data) h
        exact ⟨⟨joinWith1 '.' qs⟩, by simp [camelNormalize, hqs]⟩
      intro l hl
      induction l with
      | nil => exact ⟨[], rfl⟩
      | cons q l ih2 =>
        obtain ⟨qs, hqs⟩ := ih2 fun p hp => hl p (by simp [hp])
        cases q with
        | nil => exact absurd rfl (hl [] (by simp))
        | cons c cs =>
          exact ⟨(asciiLower c :: cs) :: qs, by simp [lcfirstAll, lcfirst, hqs]⟩
    · rintro ⟨r, hr⟩ p hp
      simp only [camelNormalize, Option.map_eq_some'] at hr
      obtain ⟨ps, hps, _⟩ := hr
      intro he
      subst he
      -- an empty segment makes lcfirstAll fail
      suffices hs : ∀ l : List (List Char), [] ∈ l → lcfirstAll l = none by
        rw [hs _ hp] at hps
        exact nomatch hps
      intro l hmem
      induction l with
      | nil => simp at hmem
      | cons q l ih2 =>
        rcases List.mem_cons.1 hmem with rfl | h2
        · cases hq : lcfirstAll l <;> simp [lcfirstAll, lcfirst, hq]
        · cases q with
          | nil => cases hq : lcfirstAll l <;> simp [lcfirstAll, lcfirst, hq]
          | cons c cs => simp [lcfirstAll, lcfirst, ih2 h2]
  · intro orc tenv typ data key t hne hcamel
    simp only [MapSource.ReadKey, getKeyFromMap, if_neg hne, normalizeConv, hcamel]
  · intro tenv orc g fuel key t hcamel hstruct hptr hfuel
    obtain ⟨m, rfl⟩ := Nat.exists_eq_succ_of_ne_zero (Nat.pos_iff_ne_zero.1 hfuel)
    have hstep : envStep ⟨tenv, orc, g, .camel⟩ ⟨key, ⟨.root, []⟩, t⟩ [] ⟨.dzero t, []⟩ =
        .panicked := by
      have hunwrap : unwrapPtr tenv ⟨.dzero t, []⟩ ⟨.root, []⟩ t =
          (⟨.dzero t, []⟩, ⟨.root, []⟩, t) := by
        cases t <;> first | rfl | exact absurd rfl (hptr _)
      cases t with
      | tstring => simp only [envStep, hunwrap, readEnvKey, normalizeConv, hcamel]
      | tint => simp only [envStep, hunwrap, readEnvKey, normalizeConv, hcamel]
      | tfloat => simp only [envStep, hunwrap, readEnvKey, normalizeConv, hcamel]
      | tbool => simp only [envStep, hunwrap, readEnvKey, normalizeConv, hcamel]
      | tmap k v => simp only [envStep, hunwrap, readEnvKey, normalizeConv, hcamel]
      | tslice u => simp only [envStep, hunwrap, readEnvKey, normalizeConv, hcamel]
      | tptr u => exact absurd rfl (hptr u)
      | tstruct fs => simp [isStructKind] at hstruct
      | tnamed n => simp [isStructKind] at hstruct
    show envRun ⟨tenv, orc, g, .camel⟩ (m + 1)
      ⟨⟨.dzero t, []⟩, [{ key := key, tgt := ⟨.root, []⟩, ty := t }]⟩ = .panicked
    rw [envRun.eq_def]
    simp only []
    rw [hstep]

/-- Witness for the amended C10 at concrete inputs: `"a.b"` has nonempty
segments and a defined normalization; `"a..b"` panics, and both `ReadKey`
variants panic on it. -/
theorem C10_camel_panic_amended_witness :
    (∃ r, camelNormalize "a.b" = some r) ∧
    MapSource.ReadKey noReaders [] ⟨"json", [], .camel⟩ "a..b" (.valid .tint) = .panicked ∧
    EnvSource.ReadKey ⟨[], noReaders, ⟨fun _ => "", defaultSourceConventions⟩, .camel⟩ 1
      "a..b" (.valid .tint) = .panicked := by
  refine ⟨C10_camel_panic_amended.1 "a.b" |>.1 (by decide), ?_, ?_⟩
  · exact C10_camel_panic_amended.2.1 noReaders [] "json" [] "a..b" .tint (by decide) rfl
  · exact C10_camel_panic_amended.2.2 [] noReaders ⟨fun _ => "", defaultSourceConventions⟩ 1
      "a..b" .tint rfl rfl (fun u => by intro h; exact nomatch h) (by decide)

/-! ## C5: unknown convention -/

/-- C5: explicitly requesting the unregistered convention name `"kebab"`
makes every source constructor fail with `UnknownConvention`, so a caller
that builds the source and reads (the only way `Read`/`ReadKey` can be
reached) gets exactly that error from the whole operation, for both decoder
variants. -/
theorem C5_unknown_convention_kebab (g : Gbl) (data : List (String × GoValue))
    (orc : Oracle) (tenv : TypeEnv) (fuel : Nat) (key : String) (tg : Tgt) :
    NewYAMLSource g data "kebab" = .error (.unknownConvention "kebab")
    ∧ NewJSONSource g data "kebab" = .error (.unknownConvention "kebab")
    ∧ NewEnvSource g "kebab" = .error (.unknownConvention "kebab")
    ∧ readKeyBuilt orc tenv (NewJSONSource g data "kebab") key tg =
        .fail (.unknownConvention "kebab")
    ∧ readKeyBuiltEnv tenv orc g (NewEnvSource g "kebab") fuel key tg =
        .fail (.unknownConvention "kebab") :=
  ⟨rfl, rfl, rfl, rfl, rfl⟩

/-! ## C8: absence is a valid terminal state -/

/-- C8: the tree-accessor descent returns nil as soon as the current value is
not itself a mapping (and nil is absorbing), and decoding an absent root
value is not an error: `ReadKey` drops the work item and returns success with
the destination left at its zero value. -/
theorem C8_absent_lookup_succeeds :
    (∀ (p : String) (ps : List String) (v : GoValue),
      (∀ es, v ≠ .vmap es) → descendKey (p :: ps) v = .vnull)
    ∧ (∀ ps : List String, descendKey ps .vnull = .vnull)
    ∧ (∀ (orc : Oracle) (tenv : TypeEnv) (s : MapSource) (key : String) (t : GoType),
        getKeyFromMap s.conv s.data key = .ok .vnull →
        MapSource.ReadKey orc tenv s key (.valid t) =
          .done ⟨⟨.dzero t, []⟩, [], [], [.deq none]⟩) := by
  refine ⟨?_, ?_, ?_⟩
  · intro p ps v hv
    cases v with
    | vmap es => exact absurd rfl (hv es)
    | vnull => rfl
    | vstring s => rfl
    | vint n => rfl
    | vfloat q => rfl
    | vbool b => rfl
    | vslice xs => rfl
  · intro ps
    cases ps <;> rfl
  · intro orc tenv s key t h
    have h1 : MapSource.ReadKey orc tenv s key (.valid t) =
        mapRun ⟨tenv, orc, s.typ, s.conv⟩ (mapFuel tenv t .vnull)
          ⟨⟨.dzero t, []⟩, [], [{ src := .vnull, tgt := ⟨.root, []⟩, ty := t, cb := none }], []⟩ := by
      simp only [MapSource.ReadKey, h]
    rw [h1]
    obtain ⟨m, hm⟩ : ∃ m, mapFuel tenv t .vnull = m + 1 := by
      refine ⟨mapFuel tenv t .vnull - 1, ?_⟩
      have : 0 < mapFuel tenv t .vnull := by
        simp only [mapFuel, gsize]
        exact Nat.pow_pos (by omega)
      omega
    rw [hm, mapRun.eq_def]
    simp only [mapStep]
    rw [mapRun.eq_def]
    simp [cbTag]

/-- Witness for C8 at concrete inputs: segment `"b"` at the non-mapping value
`"x"`, the absorbing nil, and a `ReadKey` whose camel-convention lookup of
`"a.b"` is absent in `{"a": "x"}`. -/
theorem C8_absent_lookup_succeeds_witness :
    descendKey ["b"] (.vstring "x") = .vnull ∧
    descendKey ["b", "c"] .vnull = .vnull ∧
    MapSource.ReadKey noReaders [] ⟨"json", [("a", .vstring "x")], .camel⟩ "a.b"
      (.valid .tstring) = .done ⟨⟨.dzero .tstring, []⟩, [], [], [.deq none]⟩ := by
  refine ⟨?_, ?_, ?_⟩
  · exact C8_absent_lookup_succeeds.1 "b" [] (.vstring "x") (fun es h => nomatch h)
  · exact C8_absent_lookup_succeeds.2.1 ["b", "c"]
  · exact C8_absent_lookup_succeeds.2.2 noReaders [] ⟨"json", [("a", .vstring "x")], .camel⟩
      "a.b" .tstring rfl

/-! ## C2: custom decoders are preferred and their errors propagate verbatim -/

/-- C2: when the record target implements the custom-decode capability, both
decoder variants invoke it (the map variant with the restricted submapping,
the flat variant with the prefix-scoped key) *instead of* structural field
traversal — the result is exactly the oracle's outcome, independently of the
record's fields, with the destination left untouched — and a non-nil error is
returned unmodified from the top-level `ReadKey`. -/
theorem C2_custom_decoder_preferred :
    (∀ (orc : Oracle) (tenv : TypeEnv) (s : MapSource) (key : String) (n : String)
        (es : List (String × GoValue)),
      orc.isReader n = true →
      getKeyFromMap s.conv s.data key = .ok (.vmap es) →
      MapSource.ReadKey orc tenv s key (.valid (.tnamed n)) =
        match orc.run n (.sub s.typ es) with
        | some e => .fail e
        | none => .done ⟨⟨.dzero (.tnamed n), []⟩, [], [], [.deq none]⟩)
    ∧ (∀ (pr : EParams) (fuel : Nat) (key : String) (n : String),
        pr.oracle.isReader n = true → 0 < fuel →
        EnvSource.ReadKey pr fuel key (.valid (.tnamed n)) =
          match pr.oracle.run n (.pfx key) with
          | some e => .fail e
          | none => .done ⟨⟨.dzero (.tnamed n), []⟩, []⟩) := by
  constructor
  · intro orc tenv s key n es hrd hlk
    have h1 : MapSource.ReadKey orc tenv s key (.valid (.tnamed n)) =
        mapRun ⟨tenv, orc, s.typ, s.conv⟩ (mapFuel tenv (.tnamed n) (.vmap es))
          ⟨⟨.dzero (.tnamed n), []⟩, [],
            [{ src := .vmap es, tgt := ⟨.root, []⟩, ty := .tnamed n, cb := none }], []⟩ := by
      simp only [MapSource.ReadKey, hlk]
    rw [h1]
    obtain ⟨m, hm⟩ : ∃ m, mapFuel tenv (.tnamed n) (.vmap es) = m + 1 := by
      have : 0 < mapFuel tenv (.tnamed n) (.vmap es) := by
        simp only [mapFuel, gsize]
        exact Nat.pow_pos (by omega)
      exact ⟨mapFuel tenv (.tnamed n) (.vmap es) - 1, by omega⟩
    rw [hm, mapRun.eq_def]
    simp only [mapStep, unwrapPtr, convertGo, hrd, if_pos]
    cases horc : orc.run n (.sub s.typ es) with
    | some e => simp
    | none =>
      simp only [runCB]
      rw [mapRun.eq_def]
      simp [cbTag]
  · intro pr fuel key n hrd hfuel
    obtain ⟨m, rfl⟩ := Nat.exists_eq_succ_of_ne_zero (Nat.pos_iff_ne_zero.1 hfuel)
    have h1 : EnvSource.ReadKey pr (m + 1) key (.valid (.tnamed n)) =
        envRun pr (m + 1)
          ⟨⟨.dzero (.tnamed n), []⟩, [{ key := key, tgt := ⟨.root, []⟩, ty := .tnamed n }]⟩ := rfl
    rw [h1, envRun.eq_def]
    simp only [envStep, unwrapPtr, hrd, if_pos]
    cases horc : pr.oracle.run n (.pfx key) with
    | some e => simp
    | none =>
      simp only []
      rw [envRun.eq_def]

/-- A custom decoder that always fails with the opaque error 7, on every
named struct type. -/
def readerFails : Oracle := ⟨fun _ => true, fun _ _ => some (.custom 7)⟩

def gblEmpty : Gbl := ⟨fun _ => "", defaultSourceConventions⟩

/-- Witness for C2 at concrete inputs: a failing custom decoder's error 7
comes back verbatim from both variants' `ReadKey`. -/
theorem C2_custom_decoder_preferred_witness :
    MapSource.ReadKey readerFails [] ⟨"json", [("a", .vstring "x")], .camel⟩ ""
      (.valid (.tnamed "cfg")) = .fail (.custom 7) ∧
    EnvSource.ReadKey ⟨[], readerFails, gblEmpty, .camel⟩ 5 "db" (.valid (.tnamed "cfg")) =
      .fail (.custom 7) := by
  constructor
  · have h := C2_custom_decoder_preferred.1 readerFails []
      ⟨"json", [("a", .vstring "x")], .camel⟩ "" "cfg" [("a", .vstring "x")] rfl rfl
    rw [h]
    rfl
  · have h := C2_custom_decoder_preferred.2 ⟨[], readerFails, gblEmpty, .camel⟩ 5 "db" "cfg"
      rfl (by omega)
    rw [h]
    rfl

/-! ## C6: mapping destinations from JSON environment values -/

/-- The environment of the C6 scenario: the (upper-snake normalized form of
the) key `m` holds a JSON-encoded object.  The source is built with the camel
convention so that the physical key is `m` itself. -/
def envC6 : EParams :=
  ⟨[], noReaders,
    ⟨fun k => if k = "m" then "\x7b\"a\":\"b\"\x7d" else "", defaultSourceConventions⟩, .camel⟩

/-- C6: the environment value is a well-formed JSON object, yet the decoder
never populates a mapping destination from it: `readEnvPrimitive` unmarshals
into `map[interface{}]interface{}`, whose `interface{}` key type
`encoding/json` rejects for every JSON object, so the `Unmarshal` error is
absorbed and `ReadKey` returns success with the destination map still nil —
contradicting the code's own comment and the README ("Maps are always parsed
as JSON strings"). -/
theorem C6_env_json_map_never_populated :
    jsonParse "\x7b\"a\":\"b\"\x7d" = .ok (.vmap [("a", .vstring "b")]) ∧
    unmarshalIfaceMap "\x7b\"a\":\"b\"\x7d" = .error .jsonError ∧
    EnvSource.ReadKeyB envC6 "m" (.valid (.tmap .tstring .tstring)) =
      .done ⟨⟨.dzero (.tmap .tstring .tstring), []⟩, []⟩ :=
  ⟨rfl, rfl, rfl⟩

/-! ## C1: which errors escape to the caller -/

/-- The only failure a map-variant step can produce is an error returned by a
custom decoder. -/
theorem mapStep_fail {pr : MParams} {it : MapItem} {rest : List MapItem}
    {heap : Heap} {flags : List Bool} {log : List Ev} {e : GoError}
    (h : mapStep pr it rest heap flags log = .fail e) :
    ∃ n arg, pr.oracle.run n arg = some e := by
  unfold mapStep at h
  split at h
  · exact nomatch h
  · dsimp only at h
    split at h
    · exact nomatch h
    · split at h
      · split at h <;> exact nomatch h
      · exact nomatch h
      · exact nomatch h
      · exact nomatch h
      · exact nomatch h
      · exact nomatch h
      · exact nomatch h
      · -- record case with a reader
        split at h
        · split at h
          · rename_i e2 horc
            cases h
            exact ⟨_, _, horc⟩
          · exact nomatch h
        · split at h
          · exact nomatch h
          · exact nomatch h
      · split at h
        · exact nomatch h
        · exact nomatch h
      · exact nomatch h
      · exact nomatch h
      · exact nomatch h

/-- A full map-variant run can only fail with a custom decoder's error. -/
theorem mapRun_fail {pr : MParams} {e : GoError} :
    ∀ (fuel : Nat) (st : MSt), mapRun pr fuel st = .fail e →
      ∃ n arg, pr.oracle.run n arg = some e := by
  intro fuel
  induction fuel with
  | zero =>
    intro st h
    rw [mapRun.eq_def] at h
    simp only [] at h
    cases hq : st.queue with
    | nil => rw [hq] at h; exact nomatch h
    | cons it rest => rw [hq] at h; exact nomatch h
  | succ m ih =>
    intro st h
    rw [mapRun.eq_def] at h
    simp only [] at h
    cases hq : st.queue with
    | nil => rw [hq] at h; exact nomatch h
    | cons it rest =>
      rw [hq] at h
      simp only [] at h
      split at h
      · exact ih _ h
      · cases h
        rename_i hstep
        exact mapStep_fail hstep
      · exact nomatch h

theorem NormalizerForSourceType_error {g : Gbl} {conv st : String} {e : GoError}
    (h : NormalizerForSourceType g conv st = .error e) : ∃ c, e = .unknownConvention c := by
  unfold NormalizerForSourceType at h
  split at h
  · split at h
    · exact nomatch h
    · cases h
      exact ⟨conv, rfl⟩
  · dsimp only at h
    split at h
    · exact nomatch h
    · cases h
      exact ⟨_, rfl⟩

theorem NewJSONSource_error {g : Gbl} {d : List (String × GoValue)} {conv : String}
    {e : GoError} (h : NewJSONSource g d conv = .error e) : ∃ c, e = .unknownConvention c := by
  unfold NewJSONSource at h
  split at h
  · cases h
    rename_i he
    exact NormalizerForSourceType_error he
  · exact nomatch h

theorem unmarshalIfaceSlice_error {s : String} {e : GoError}
    (h : unmarshalIfaceSlice s = .error e) : e = .jsonError := by
  unfold unmarshalIfaceSlice at h
  split at h <;> first | (cases h; rfl) | exact nomatch h

theorem unmarshalIfaceMap_error {s : String} {e : GoError}
    (h : unmarshalIfaceMap s = .error e) : e = .jsonError := by
  unfold unmarshalIfaceMap at h
  split at h <;> first | (cases h; rfl) | exact nomatch h

/-- Classification of the errors `readEnvSlice` can return: a JSON unmarshal
failure, an unknown convention resolving the internal JSON source, or a
custom decoder's error from the nested map traversal. -/
theorem readEnvSlice_err {pr : EParams} {value : String} {heap : Heap} {tgt : Loc}
    {t : GoType} {e : GoError} {h2 : Heap}
    (h : readEnvSlice pr value heap tgt t = .err e h2) :
    e = .jsonError ∨ (∃ c, e = .unknownConvention c) ∨
      ∃ n arg, pr.oracle.run n arg = some e := by
  unfold readEnvSlice at h
  split at h
  · exact nomatch h
  · split at h
    · (split at h
       · rename_i e2 he
         injection h with he1 he3
         subst he1
         exact .inl (unmarshalIfaceSlice_error he)
       · split at h
         · rename_i e2 hjs
           injection h with he1 he3
           subst he1
           exact .inr (.inl (NewJSONSource_error hjs))
         · split at h
           · exact nomatch h
           · rename_i e2 hrun
             injection h with he1 he2
             subst he1
             exact .inr (.inr (mapRun_fail _ _ hrun))
           · exact nomatch h
           · exact nomatch h)
    · (split at h
       · rename_i e2 he
         injection h with he1 he3
         subst he1
         exact .inl (unmarshalIfaceSlice_error he)
       · split at h
         · rename_i e2 hjs
           injection h with he1 he3
           subst he1
           exact .inr (.inl (NewJSONSource_error hjs))
         · split at h
           · exact nomatch h
           · rename_i e2 hrun
             injection h with he1 he2
             subst he1
             exact .inr (.inr (mapRun_fail _ _ hrun))
           · exact nomatch h
           · exact nomatch h)
    · (split at h
       · rename_i e2 he
         injection h with he1 he3
         subst he1
         exact .inl (unmarshalIfaceSlice_error he)
       · split at h
         · rename_i e2 hjs
           injection h with he1 he3
           subst he1
           exact .inr (.inl (NewJSONSource_error hjs))
         · split at h
           · exact nomatch h
           · rename_i e2 hrun
             injection h with he1 he2
             subst he1
             exact .inr (.inr (mapRun_fail _ _ hrun))
           · exact nomatch h
           · exact nomatch h)
    · dsimp only at h
      split at h <;> exact nomatch h

/-- The failures one flat-variant step can produce: a slice-destination JSON
error, an unknown convention for the internal JSON source, or a custom
decoder's error. -/
theorem envStep_fail {pr : EParams} {it : EnvItem} {rest : List EnvItem}
    {heap : Heap} {e : GoError}
    (h : envStep pr it rest heap = .fail e) :
    e = .jsonError ∨ (∃ c, e = .unknownConvention c) ∨
      ∃ n arg, pr.oracle.run n arg = some e := by
  unfold envStep at h
  dsimp only at h
  split at h
  · -- slice destination
    split at h
    · exact nomatch h
    · split at h
      · exact nomatch h
      · rename_i e2 h3 herr
        injection h with he1
        subst he1
        exact readEnvSlice_err herr
      · exact nomatch h
      · exact nomatch h
  · -- named struct
    split at h
    · split at h
      · rename_i e2 horc
        injection h with he1
        subst he1
        exact .inr (.inr ⟨_, _, horc⟩)
      · exact nomatch h
    · exact nomatch h
  · -- anonymous struct
    exact nomatch h
  · -- primitive destinations: errors absorbed
    split at h
    · exact nomatch h
    · split at h <;> exact nomatch h

/-- A full flat-variant run fails only with a JSON error, an unknown
convention, or a custom decoder's error. -/
theorem envRun_fail {pr : EParams} {e : GoError} :
    ∀ (fuel : Nat) (st : ESt), envRun pr fuel st = .fail e →
      e = .jsonError ∨ (∃ c, e = .unknownConvention c) ∨
        ∃ n arg, pr.oracle.run n arg = some e := by
  intro fuel
  induction fuel with
  | zero =>
    intro st h
    rw [envRun.eq_def] at h
    simp only [] at h
    cases hq : st.queue with
    | nil => rw [hq] at h; exact nomatch h
    | cons it rest => rw [hq] at h; exact nomatch h
  | succ m ih =>
    intro st h
    rw [envRun.eq_def] at h
    simp only [] at h
    cases hq : st.queue with
    | nil => rw [hq] at h; exact nomatch h
    | cons it rest =>
      rw [hq] at h
      simp only [] at h
      split at h
      · exact ih _ h
      · rename_i hstep
        injection h with he1
        subst he1
        exact envStep_fail hstep
      · exact nomatch h
      · exact nomatch h

/-- The amended C1: the propagation policy of both variants.  Map variant:
the only errors `Read`/`ReadKey` ever return are `InvalidTarget` and custom
decoder errors (plus `UnknownConvention` at construction, see C5); every
coercion failure is locally absorbed.  Flat variant: additionally, a
slice-of-records/slice-of-slices destination *returns* the JSON unmarshal
error of its environment value, and resolving the internal JSON source's
convention can surface `UnknownConvention` at decode time. -/
theorem C1_error_propagation_amended :
    (∀ (orc : Oracle) (tenv : TypeEnv) (s : MapSource) (key : String) (tg : Tgt) (e : GoError),
      MapSource.ReadKey orc tenv s key tg = .fail e →
        e = .invalidTarget ∨ ∃ n arg, orc.run n arg = some e)
    ∧ (∀ (orc : Oracle) (tenv : TypeEnv) (s : MapSource) (tg : Tgt) (e : GoError),
        MapSource.Read orc tenv s tg = .fail e →
          e = .invalidTarget ∨ ∃ n arg, orc.run n arg = some e)
    ∧ (∀ (pr : EParams) (fuel : Nat) (key : String) (tg : Tgt) (e : GoError),
        EnvSource.ReadKey pr fuel key tg = .fail e →
          e = .invalidTarget ∨ e = .jsonError ∨ (∃ c, e = .unknownConvention c) ∨
            ∃ n arg, pr.oracle.run n arg = some e)
    ∧ (∀ (pr : EParams) (fuel : Nat) (tg : Tgt) (e : GoError),
        EnvSource.Read pr fuel tg = .fail e →
          e = .invalidTarget ∨ e = .jsonError ∨ (∃ c, e = .unknownConvention c) ∨
            ∃ n arg, pr.oracle.run n arg = some e) := by
  refine ⟨?_, ?_, ?_, ?_⟩
  · intro orc tenv s key tg e h
    unfold MapSource.ReadKey at h
    split at h
    · injection h with he1; exact .inl he1.symm
    · injection h with he1; exact .inl he1.symm
    · split at h
      · exact nomatch h
      · exact .inr (mapRun_fail _ _ h)
  · intro orc tenv s tg e h
    unfold MapSource.Read at h
    split at h
    · injection h with he1; exact .inl he1.symm
    · injection h with he1; exact .inl he1.symm
    · split at h
      · exact .inr (mapRun_fail _ _ h)
      · injection h with he1; exact .inl he1.symm
  · intro pr fuel key tg e h
    unfold EnvSource.ReadKey at h
    split at h
    · injection h with he1; exact .inl he1.symm
    · injection h with he1; exact .inl he1.symm
    · exact .inr (envRun_fail _ _ h)
  · intro pr fuel tg e h
    unfold EnvSource.Read at h
    split at h
    · injection h with he1; exact .inl he1.symm
    · injection h with he1; exact .inl he1.symm
    · split at h
      · exact .inr (envRun_fail _ _ h)
      · injection h with he1; exact .inl he1.symm

/-- The environment and parameters of the C1 counterexample: the key
`oauth2` holds a string that is not valid JSON, and the destination is a
slice of (named) records. -/
def envC1 : EParams :=
  ⟨[("prov", [("key", .tstring)])], noReaders,
    ⟨fun k => if k = "oauth2" then "notjson" else "", defaultSourceConventions⟩, .camel⟩

/-- C1 counterexample: a malformed JSON value for a slice-of-records
destination is *not* locally absorbed — the flat variant returns the
`json.Unmarshal` error from `ReadKey`, and that error is none of
`InvalidTarget`, `UnknownConvention`, or a custom decoder's error (the
oracle here has no readers at all). -/
theorem C1_env_slice_json_error_escapes :
    EnvSource.ReadKeyB envC1 "oauth2" (.valid (.tslice (.tnamed "prov"))) = .fail .jsonError ∧
    GoError.jsonError ≠ .invalidTarget ∧
    (∀ c, GoError.jsonError ≠ .unknownConvention c) ∧
    (∀ n arg, noReaders.run n arg ≠ some .jsonError) := by
  refine ⟨rfl, by decide, ?_, ?_⟩
  · intro c
    simp
  · intro n arg
    simp [noReaders]

/-- Witness for the amended C1 at concrete inputs: a failing custom decoder's
error on the map variant is classified as a custom error, and the flat
variant's JSON failure is classified as a JSON error. -/
theorem C1_error_propagation_amended_witness :
    (GoError.custom 7 = .invalidTarget ∨
      ∃ n arg, readerFails.run n arg = some (.custom 7)) ∧
    (GoError.jsonError = .invalidTarget ∨ GoError.jsonError = .jsonError ∨
      (∃ c, GoError.jsonError = .unknownConvention c) ∨
      ∃ n arg, envC1.oracle.run n arg = some .jsonError) := by
  constructor
  · exact C1_error_propagation_amended.1 readerFails []
      ⟨"json", [("a", .vstring "x")], .camel⟩ "" (.valid (.tnamed "cfg")) (.custom 7)
      (by rw [C2_custom_decoder_preferred_witness.1])
  · exact C1_error_propagation_amended.2.2.1 envC1 (tsize (.tslice (.tnamed "prov")))
      "oauth2" (.valid (.tslice (.tnamed "prov"))) .jsonError
      C1_env_slice_json_error_escapes.1

/-! ## C7: termination

### Size positivity and member bounds -/

theorem gsize_pos (v : GoValue) : 1 ≤ gsize v := by
  cases v <;> simp [gsize]

theorem gsizeL_ge_length (xs : List GoValue) : xs.length ≤ gsizeL xs := by
  induction xs with
  | nil => simp [gsizeL]
  | cons x l ih =>
    have := gsize_pos x
    simp only [gsizeL, List.length_cons]
    omega

theorem gsizeM_ge_length (es : List (String × GoValue)) : es.length ≤ gsizeM es := by
  induction es with
  | nil => simp [gsizeM]
  | cons e l ih =>
    obtain ⟨k, v⟩ := e
    have := gsize_pos v
    simp only [gsizeM, List.length_cons]
    omega

theorem gsize_mem_slice {x : GoValue} {xs : List GoValue} (h : x ∈ xs) :
    gsize x ≤ gsizeL xs := by
  induction xs with
  | nil => simp at h
  | cons y l ih =>
    rcases List.mem_cons.1 h with rfl | h2
    · simp only [gsizeL]
      omega
    · have := ih h2
      cases y <;> simp only [gsizeL] <;> omega

theorem gsize_mem_map {k : String} {v : GoValue} {es : List (String × GoValue)}
    (h : (k, v) ∈ es) : gsize v + 1 ≤ gsizeM es := by
  induction es with
  | nil => simp at h
  | cons e l ih =>
    rcases List.mem_cons.1 h with rfl | h2
    · simp only [gsizeM]
      omega
    · have := ih h2
      obtain ⟨k2, v2⟩ := e
      simp only [gsizeM]
      omega

theorem gsize_lookup {p : String} {es : List (String × GoValue)} {v : GoValue}
    (h : List.lookup p es = some v) : gsize v + 1 ≤ gsizeM es := by
  induction es with
  | nil => simp [List.lookup] at h
  | cons e l ih =>
    obtain ⟨k2, v2⟩ := e
    simp only [List.lookup] at h
    split at h
    · cases h
      simp only [gsizeM]
      omega
    · have := ih h
      simp only [gsizeM]
      omega

theorem tsize_pos (t : GoType) : 1 ≤ tsize t := by
  cases t <;> simp only [tsize] <;> omega

theorem tsizeL_ge_length (fs : List (String × GoType)) : fs.length ≤ tsizeL fs := by
  induction fs with
  | nil => simp [tsizeL]
  | cons f l ih =>
    obtain ⟨k, t⟩ := f
    simp only [tsizeL, List.length_cons]
    omega

theorem tsize_mem_fields {k : String} {t : GoType} {fs : List (String × GoType)}
    (h : (k, t) ∈ fs) : tsize t ≤ tsizeL fs := by
  induction fs with
  | nil => simp at h
  | cons f l ih =>
    rcases List.mem_cons.1 h with rfl | h2
    · simp only [tsizeL]
      omega
    · have := ih h2
      obtain ⟨k2, t2⟩ := f
      simp only [tsizeL]
      omega

theorem tsizeL_mem_env {n : String} {fs : List (String × GoType)} {tenv : TypeEnv}
    (h : (n, fs) ∈ tenv) : tsizeL fs ≤ tesize tenv := by
  induction tenv with
  | nil => simp at h
  | cons e l ih =>
    rcases List.mem_cons.1 h with rfl | h2
    · simp only [tesize]
      omega
    · have := ih h2
      obtain ⟨n2, fs2⟩ := e
      simp only [tesize]
      omega

theorem lookup_mem {α β : Type} [BEq α] [LawfulBEq α] {k : α} {v : β} {l : List (α × β)}
    (h : List.lookup k l = some v) : (k, v) ∈ l := by
  induction l with
  | nil => simp [List.lookup] at h
  | cons e l ih =>
    obtain ⟨k2, v2⟩ := e
    simp only [List.lookup] at h
    split at h
    · rename_i heq
      cases h
      have : k = k2 := by simpa using heq
      subst this
      simp
    · simp [ih h]

/-! ### Struct subterms and the field-count bound -/

/-- `StructSub fs t`: the struct type with field list `fs` occurs as a
subterm of `t`. -/
inductive StructSub : List (String × GoType) → GoType → Prop where
  | here (fs) : StructSub fs (.tstruct fs)
  | ptr {fs t} : StructSub fs t → StructSub fs (.tptr t)
  | slice {fs t} : StructSub fs t → StructSub fs (.tslice t)
  | mapK {fs k v} : StructSub fs k → StructSub fs (.tmap k v)
  | mapV {fs k v} : StructSub fs v → StructSub fs (.tmap k v)
  | fieldOf {fs t gs} (k : String) : StructSub fs t → (k, t) ∈ gs →
      StructSub fs (.tstruct gs)

/-- Every struct subterm of `t` has at most `B` fields. -/
def tyFits (B : Nat) (t : GoType) : Prop := ∀ fs, StructSub fs t → fs.length ≤ B

/-- Every struct body of the type environment (and every struct nested in
one) has at most `B` fields. -/
def envFits (B : Nat) (tenv : TypeEnv) : Prop :=
  ∀ p ∈ tenv, p.2.length ≤ B ∧ ∀ f ∈ p.2, tyFits B f.2

theorem StructSub_tsizeL_lt {fs : List (String × GoType)} {t : GoType}
    (h : StructSub fs t) : tsizeL fs < tsize t := by
  induction h with
  | here => simp [tsize]
  | ptr _ ih => simp only [tsize]; omega
  | slice _ ih => simp only [tsize]; omega
  | mapK _ ih => simp only [tsize]; omega
  | mapV _ ih => simp only [tsize]; omega
  | fieldOf k _ hmem ih =>
    have := tsize_mem_fields hmem
    simp only [tsize]
    omega

theorem tyFits_of_tsize_le {B : Nat} {t : GoType} (h : tsize t ≤ B) : tyFits B t := by
  intro fs hsub
  have h1 := StructSub_tsizeL_lt hsub
  have h2 := tsizeL_ge_length fs
  omega

theorem envFits_of_tesize_le {B : Nat} {tenv : TypeEnv} (h : tesize tenv ≤ B) :
    envFits B tenv := by
  intro p hp
  obtain ⟨n, fs⟩ := p
  have h1 := tsizeL_mem_env hp
  constructor
  · have := tsizeL_ge_length fs
    show fs.length ≤ B
    omega
  · intro f hf
    obtain ⟨k, t⟩ := f
    have h2 : tsize t ≤ tsizeL fs := tsize_mem_fields hf
    show tyFits B t
    exact tyFits_of_tsize_le (by omega)

theorem tyFits_ptr {B : Nat} {t : GoType} (h : tyFits B (.tptr t)) : tyFits B t :=
  fun fs hs => h fs (.ptr hs)

theorem tyFits_slice {B : Nat} {t : GoType} (h : tyFits B (.tslice t)) : tyFits B t :=
  fun fs hs => h fs (.slice hs)

theorem tyFits_mapK {B : Nat} {k v : GoType} (h : tyFits B (.tmap k v)) : tyFits B k :=
  fun fs hs => h fs (.mapK hs)

theorem tyFits_mapV {B : Nat} {k v : GoType} (h : tyFits B (.tmap k v)) : tyFits B v :=
  fun fs hs => h fs (.mapV hs)

theorem tyFits_struct_len {B : Nat} {fs : List (String × GoType)}
    (h : tyFits B (.tstruct fs)) : fs.length ≤ B :=
  h fs (.here fs)

theorem tyFits_struct_field {B : Nat} {fs : List (String × GoType)} {k : String} {t : GoType}
    (h : tyFits B (.tstruct fs)) (hmem : (k, t) ∈ fs) : tyFits B t :=
  fun gs hs => h gs (.fieldOf k hs hmem)

theorem envFits_named {B : Nat} {tenv : TypeEnv} {n : String} (h : envFits B tenv) :
    (envFields tenv n).length ≤ B ∧ ∀ f ∈ envFields tenv n, tyFits B f.2 := by
  unfold envFields
  cases hl : List.lookup n tenv with
  | none => simp
  | some fs =>
    have := h (n, fs) (lookup_mem hl)
    simpa using this

/-! ### Source-size bounds for the children of one map step -/

theorem descendKey_vnull_abs (ps : List String) : descendKey ps .vnull = .vnull := by
  cases ps <;> simp [descendKey]

theorem descendKey_gsize_le (ps : List String) (v : GoValue) :
    gsize (descendKey ps v) ≤ gsize v := by
  induction ps generalizing v with
  | nil => simp [descendKey]
  | cons p ps ih =>
    cases v with
    | vmap es =>
      simp only [descendKey]
      cases hl : List.lookup p es with
      | none =>
        simp only [Option.getD]
        rw [descendKey_vnull_abs]
        simp only [gsize]
        have := gsize_pos (.vmap es)
        simp only [gsize] at this ⊢
        omega
      | some v1 =>
        have h1 := gsize_lookup hl
        have h2 := ih v1
        simp only [Option.getD, gsize]
        omega
    | vnull => rw [descendKey_vnull_abs]
    | vstring s => simp [descendKey, gsize]
    | vint n => simp [descendKey, gsize]
    | vfloat q => simp [descendKey, gsize]
    | vbool b => simp [descendKey, gsize]
    | vslice xs => simp [descendKey, gsize]

theorem descendKey_strict {p : String} {ps : List String}
    {es : List (String × GoValue)}
    (h : descendKey (p :: ps) (.vmap es) ≠ .vnull) :
    gsize (descendKey (p :: ps) (.vmap es)) ≤ gsizeM es := by
  simp only [descendKey] at h ⊢
  revert h
  cases hl : List.lookup p es with
  | none =>
    intro h
    simp only [Option.getD_none] at h
    exact absurd (descendKey_vnull_abs ps) h
  | some v1 =>
    intro h
    simp only [Option.getD_some]
    have h1 := gsize_lookup hl
    have h2 := descendKey_gsize_le ps v1
    omega

/-- A non-nil result of a nonempty-key tree lookup is strictly smaller than
the root mapping. -/
theorem getKeyFromMap_gsize {conv : Conv} {m : List (String × GoValue)}
    {key : String} {v : GoValue}
    (hk : key ≠ "") (h : getKeyFromMap conv m key = .ok v) (hv : v ≠ .vnull) :
    gsize v ≤ gsizeM m := by
  unfold getKeyFromMap at h
  rw [if_neg hk] at h
  cases hn : normalizeConv conv key with
  | none => rw [hn] at h; exact nomatch h
  | some nk =>
    rw [hn] at h
    injection h with h
    subst h
    have hne := splitOn1_ne_nil '.' nk.data
    revert hv
    cases hp : (splitOn1 '.' nk.data).map (fun l => (⟨l⟩ : String)) with
    | nil =>
      intro hv
      exfalso
      have := List.map_eq_nil_iff.1 hp
      exact hne this
    | cons p ps =>
      intro hv
      exact descendKey_strict hv

/-! ### Shape of the children lists -/

theorem sliceChildren_length (t : GoType) (tgt : Loc) :
    ∀ i xs, (sliceChildren t tgt i xs).length = xs.length := by
  intro i xs
  induction xs generalizing i with
  | nil => simp [sliceChildren]
  | cons x l ih => simp [sliceChildren, ih]

theorem sliceChildren_mem {t : GoType} {tgt : Loc} :
    ∀ {i xs c}, c ∈ sliceChildren t tgt i xs → c.ty = t ∧ c.src ∈ xs := by
  intro i xs
  induction xs generalizing i with
  | nil => intro c h; simp [sliceChildren] at h
  | cons x l ih =>
    intro c h
    simp only [sliceChildren, List.mem_cons] at h
    rcases h with rfl | h
    · exact ⟨rfl, by simp⟩
    · have := ih h
      exact ⟨this.1, List.mem_cons_of_mem _ this.2⟩

theorem mapEntryItems_length (kt vt : GoType) (tgt : Loc) (flag0 cell0 : Nat) :
    ∀ j es, (mapEntryItems kt vt tgt flag0 cell0 j es).length = 2 * es.length := by
  intro j es
  induction es generalizing j with
  | nil => simp [mapEntryItems]
  | cons e l ih =>
    obtain ⟨k, v⟩ := e
    simp only [mapEntryItems, List.length_cons, ih, List.length_cons]
    omega

theorem mapEntryItems_mem {kt vt : GoType} {tgt : Loc} {flag0 cell0 : Nat} :
    ∀ {j es c}, c ∈ mapEntryItems kt vt tgt flag0 cell0 j es →
      ∃ p ∈ es, (c.ty = kt ∧ c.src = .vstring p.1) ∨ (c.ty = vt ∧ c.src = p.2) := by
  intro j es
  induction es generalizing j with
  | nil => intro c h; simp [mapEntryItems] at h
  | cons e l ih =>
    obtain ⟨k, v⟩ := e
    intro c h
    simp only [mapEntryItems, List.mem_cons] at h
    rcases h with rfl | rfl | h
    · exact ⟨(k, v), by simp, Or.inl ⟨rfl, rfl⟩⟩
    · exact ⟨(k, v), by simp, Or.inr ⟨rfl, rfl⟩⟩
    · obtain ⟨p, hp, hc⟩ := ih h
      exact ⟨p, List.mem_cons_of_mem _ hp, hc⟩

/-- Unfolding equation for `structChildren` at a field whose key lookup
succeeds with a non-nil value. -/
theorem structChildren_cons_nonnull {conv : Conv} {m : List (String × GoValue)}
    {tgt : Loc} {i : Nat} {key : String} {fty : GoType} {fs : List (String × GoType)}
    {v : GoValue} (hk : key ≠ "") (hg : getKeyFromMap conv m key = .ok v)
    (hv : v ≠ .vnull) :
    structChildren conv m tgt i ((key, fty) :: fs) =
      match structChildren conv m tgt (i + 1) fs with
      | .panicked => .panicked
      | .ok cs =>
        .ok ({ src := v, tgt := tgt.push (.fld i), ty := fty, cb := none } :: cs) := by
  cases v with
  | vnull => exact absurd rfl hv
  | vstring s => simp only [structChildren, if_neg hk, hg]
  | vint n => simp only [structChildren, if_neg hk, hg]
  | vfloat q => simp only [structChildren, if_neg hk, hg]
  | vbool b => simp only [structChildren, if_neg hk, hg]
  | vslice xs => simp only [structChildren, if_neg hk, hg]
  | vmap es2 => simp only [structChildren, if_neg hk, hg]

theorem structChildren_ok {conv : Conv} {m : List (String × GoValue)} {tgt : Loc} :
    ∀ {i fs cs}, structChildren conv m tgt i fs = .ok cs →
      cs.length ≤ fs.length ∧
        ∀ c ∈ cs, (∃ k, (k, c.ty) ∈ fs) ∧ gsize c.src ≤ gsizeM m := by
  intro i fs
  induction fs generalizing i with
  | nil =>
    intro cs h
    simp only [structChildren] at h
    injection h with h
    subst h
    exact ⟨by simp, by simp⟩
  | cons f fs ih =>
    obtain ⟨key, fty⟩ := f
    intro cs h
    by_cases hk : key = ""
    · rw [show structChildren conv m tgt i ((key, fty) :: fs) =
        structChildren conv m tgt (i + 1) fs from by simp [structChildren, hk]] at h
      obtain ⟨h1, h2⟩ := ih h
      refine ⟨by simp; omega, fun c hc => ?_⟩
      obtain ⟨⟨k2, hk2⟩, hgs⟩ := h2 c hc
      exact ⟨⟨k2, List.mem_cons_of_mem _ hk2⟩, hgs⟩
    · cases hg : getKeyFromMap conv m key with
      | panicked =>
        rw [show structChildren conv m tgt i ((key, fty) :: fs) = .panicked from by
          simp [structChildren, hk, hg]] at h
        exact nomatch h
      | ok v =>
        by_cases hv : v = .vnull
        · subst hv
          rw [show structChildren conv m tgt i ((key, fty) :: fs) =
            structChildren conv m tgt (i + 1) fs from by simp [structChildren, hk, hg]] at h
          obtain ⟨h1, h2⟩ := ih h
          refine ⟨by simp; omega, fun c hc => ?_⟩
          obtain ⟨⟨k2, hk2⟩, hgs⟩ := h2 c hc
          exact ⟨⟨k2, List.mem_cons_of_mem _ hk2⟩, hgs⟩
        · rw [structChildren_cons_nonnull hk hg hv] at h
          revert h
          cases hrec : structChildren conv m tgt (i + 1) fs with
          | panicked => intro h; exact nomatch h
          | ok cs2 =>
            intro h
            injection h with h
            subst h
            obtain ⟨h1, h2⟩ := ih hrec
            constructor
            · simp only [List.length_cons]
              omega
            · intro c hc
              rcases List.mem_cons.1 hc with rfl | hc2
              · exact ⟨⟨key, by simp⟩, getKeyFromMap_gsize hk hg hv⟩
              · obtain ⟨⟨k2, hk2⟩, hgs⟩ := h2 c hc2
                exact ⟨⟨k2, List.mem_cons_of_mem _ hk2⟩, hgs⟩

/-! ### The potential function -/

theorem pot_mono {B x y : Nat} (h : x ≤ y) :
    (B + 2 * x + 1) ^ x ≤ (B + 2 * y + 1) ^ y :=
  le_trans (Nat.pow_le_pow_left (by omega) x) (Nat.pow_le_pow_right (by omega) h)

theorem itemPot_pos (B : Nat) (it : MapItem) : 1 ≤ itemPot B it :=
  Nat.one_le_pow _ _ (by omega)

theorem queuePot_cons (B : Nat) (it : MapItem) (q : List MapItem) :
    queuePot B (it :: q) = itemPot B it + queuePot B q := by
  simp [queuePot]

theorem queuePot_append (B : Nat) (a b : List MapItem) :
    queuePot B (a ++ b) = queuePot B a + queuePot B b := by
  simp [queuePot]

theorem queuePot_le_mul {B M : Nat} :
    ∀ {children : List MapItem}, (∀ c ∈ children, itemPot B c ≤ M) →
      queuePot B children ≤ children.length * M := by
  intro children
  induction children with
  | nil => intro _; simp [queuePot]
  | cons c l ih =>
    intro h
    rw [queuePot_cons]
    have h1 := h c (by simp)
    have h2 := ih fun d hd => h d (List.mem_cons_of_mem _ hd)
    simp only [List.length_cons]
    calc itemPot B c + queuePot B l ≤ M + l.length * M := by omega
    _ = (l.length + 1) * M := by ring

/-- The key inequality: a list of children each strictly smaller than the
parent source, of length at most `B + 2 g`, has total potential strictly
below the parent's. -/
theorem children_pot_lt {B g : Nat} {children : List MapItem}
    (hlen : children.length ≤ B + 2 * g)
    (hmem : ∀ c ∈ children, gsize c.src < g) :
    queuePot B children < (B + 2 * g + 1) ^ g := by
  cases children with
  | nil =>
    have : 0 < (B + 2 * g + 1) ^ g := Nat.pos_pow_of_pos _ (by omega)
    simp only [queuePot, List.map_nil, List.sum_nil]
    omega
  | cons c0 l =>
    have hg : 1 ≤ g := by
      have := hmem c0 (by simp)
      omega
    have hM : ∀ c ∈ c0 :: l, itemPot B c ≤ (B + 2 * g + 1) ^ (g - 1) := by
      intro c hc
      have h1 : gsize c.src ≤ g - 1 := by have := hmem c hc; omega
      calc itemPot B c ≤ (B + 2 * (g - 1) + 1) ^ (g - 1) := pot_mono h1
      _ ≤ (B + 2 * g + 1) ^ (g - 1) := Nat.pow_le_pow_left (by omega) _
    have hP : 0 < (B + 2 * g + 1) ^ (g - 1) := Nat.pos_pow_of_pos _ (by omega)
    calc queuePot B (c0 :: l) ≤ (c0 :: l).length * (B + 2 * g + 1) ^ (g - 1) :=
          queuePot_le_mul hM
    _ ≤ (B + 2 * g) * (B + 2 * g + 1) ^ (g - 1) :=
          Nat.mul_le_mul_right _ hlen
    _ < (B + 2 * g + 1) * (B + 2 * g + 1) ^ (g - 1) :=
          (Nat.mul_lt_mul_right hP).mpr (by omega)
    _ = (B + 2 * g + 1) ^ g := by
          obtain ⟨k, rfl⟩ : ∃ k, g = k + 1 := ⟨g - 1, by omega⟩
          simp only [Nat.add_sub_cancel]
          rw [pow_succ]
          ring

/-! ### Pointer unwrapping preserves the bounds -/

theorem unwrapPtr_fits_aux {B : Nat} {tenv : TypeEnv} :
    ∀ n ty (h : Heap) (tgt : Loc), tsize ty ≤ n → tyFits B ty →
      tyFits B (unwrapPtr tenv h tgt ty).2.2 := by
  intro n
  induction n with
  | zero => intro ty h tgt hle _; have := tsize_pos ty; omega
  | succ m ih =>
    intro ty h tgt hle hf
    cases ty with
    | tptr t =>
      rw [show unwrapPtr tenv h tgt (.tptr t) =
        unwrapPtr tenv (h.write tenv tgt (.dptr t (some (.dzero t)))) (tgt.push .deref) t
        from rfl]
      have hle2 : tsize t ≤ m := by simp only [tsize] at hle; omega
      exact ih t _ _ hle2 (tyFits_ptr hf)
    | tslice t => exact hf
    | tmap k v => exact hf
    | tstruct fs => exact hf
    | tnamed nm => exact hf
    | tstring => exact hf
    | tint => exact hf
    | tfloat => exact hf
    | tbool => exact hf

theorem unwrapPtr_fits {B : Nat} {tenv : TypeEnv} {ty : GoType} {h : Heap} {tgt : Loc}
    (hf : tyFits B ty) : tyFits B (unwrapPtr tenv h tgt ty).2.2 :=
  unwrapPtr_fits_aux (tsize ty) ty h tgt le_rfl hf

theorem cont_pot_glue {B : Nat} {it : MapItem} {rest children : List MapItem}
    (hlen : children.length ≤ B + 2 * gsize it.src)
    (hmem : ∀ c ∈ children, gsize c.src < gsize it.src) :
    queuePot B (rest ++ children) < itemPot B it + queuePot B rest := by
  rw [queuePot_append]
  have h1 := children_pot_lt hlen hmem
  have h2 : itemPot B it = (B + 2 * gsize it.src + 1) ^ gsize it.src := rfl
  omega

/-- One continuing step of the map-variant loop keeps every queued type
within the struct-width bound `B` and strictly decreases the queue
potential. -/
theorem mapStep_cont_pot {B : Nat} {pr : MParams} {it : MapItem} {rest : List MapItem}
    {heap : Heap} {flags : List Bool} {log : List Ev} {st2 : MSt}
    (hB : envFits B pr.tenv) (hit : tyFits B it.ty)
    (hrest : ∀ c ∈ rest, tyFits B c.ty)
    (h : mapStep pr it rest heap flags log = .cont st2) :
    (∀ c ∈ st2.queue, tyFits B c.ty) ∧
      queuePot B st2.queue < itemPot B it + queuePot B rest := by
  have hpos := itemPot_pos B it
  unfold mapStep at h
  split at h
  · injection h with h
    subst h
    refine ⟨hrest, ?_⟩
    show queuePot B rest < itemPot B it + queuePot B rest
    omega
  · dsimp only at h
    split at h
    · injection h with h
      subst h
      refine ⟨hrest, ?_⟩
      show queuePot B rest < itemPot B it + queuePot B rest
      omega
    · split at h
      · -- tbool / vstring
        split at h <;>
          (injection h with h; subst h; refine ⟨hrest, ?_⟩;
            show queuePot B rest < itemPot B it + queuePot B rest; omega)
      · -- tbool / vfloat
        injection h with h
        subst h
        refine ⟨hrest, ?_⟩
        show queuePot B rest < itemPot B it + queuePot B rest
        omega
      · -- tbool / other
        injection h with h
        subst h
        refine ⟨hrest, ?_⟩
        show queuePot B rest < itemPot B it + queuePot B rest
        omega
      · -- tslice / vslice
        rename_i t xs heqty heqsrc
        injection h with h
        subst h
        have hu := @unwrapPtr_fits B pr.tenv it.ty heap it.tgt hit
        rw [heqty] at hu
        have hg : gsize it.src = 1 + gsizeL xs := by rw [heqsrc]; rfl
        constructor
        · intro c hc
          rcases List.mem_append.1 hc with hc | hc
          · exact hrest c hc
          · have := sliceChildren_mem hc
            rw [this.1]
            exact tyFits_slice hu
        · refine cont_pot_glue ?_ ?_
          · rw [sliceChildren_length]
            have := gsizeL_ge_length xs
            omega
          · intro c hc
            have := sliceChildren_mem hc
            have h2 := gsize_mem_slice this.2
            omega
      · -- tslice / other
        injection h with h
        subst h
        refine ⟨hrest, ?_⟩
        show queuePot B rest < itemPot B it + queuePot B rest
        omega
      · -- tmap / vmap
        rename_i kt vt es heqty heqsrc
        injection h with h
        subst h
        have hu := @unwrapPtr_fits B pr.tenv it.ty heap it.tgt hit
        rw [heqty] at hu
        have hg : gsize it.src = 1 + gsizeM es := by rw [heqsrc]; rfl
        constructor
        · intro c hc
          rcases List.mem_append.1 hc with hc | hc
          · exact hrest c hc
          · obtain ⟨p, hp, hcase⟩ := mapEntryItems_mem hc
            rcases hcase with ⟨hty, _⟩ | ⟨hty, _⟩
            · rw [hty]; exact tyFits_mapK hu
            · rw [hty]; exact tyFits_mapV hu
        · refine cont_pot_glue ?_ ?_
          · rw [mapEntryItems_length]
            have := gsizeM_ge_length es
            omega
          · intro c hc
            obtain ⟨p, hp, hcase⟩ := mapEntryItems_mem hc
            have hpm : (p.1, p.2) ∈ es := by simpa using hp
            have hvm := gsize_mem_map hpm
            have hvp := gsize_pos p.2
            rcases hcase with ⟨_, hsrc⟩ | ⟨_, hsrc⟩ <;> rw [hsrc]
            · have : gsize (GoValue.vstring p.1) = 1 := rfl
              omega
            · omega
      · -- tmap / other
        injection h with h
        subst h
        refine ⟨hrest, ?_⟩
        show queuePot B rest < itemPot B it + queuePot B rest
        omega
      · -- tnamed / vmap
        rename_i n es heqty heqsrc
        split at h
        · -- reader
          split at h
          · exact nomatch h
          · injection h with h
            subst h
            refine ⟨hrest, ?_⟩
            show queuePot B rest < itemPot B it + queuePot B rest
            omega
        · -- field traversal
          revert h
          cases hsc : structChildren pr.conv es
              ((unwrapPtr pr.tenv heap it.tgt it.ty).2.1) 0 (envFields pr.tenv n) with
          | panicked => intro h; exact nomatch h
          | ok cs =>
            intro h
            injection h with h
            subst h
            obtain ⟨hlen0, hmem0⟩ := structChildren_ok hsc
            have hg : gsize it.src = 1 + gsizeM es := by rw [heqsrc]; rfl
            have henv := @envFits_named B pr.tenv n hB
            constructor
            · intro c hc
              rcases List.mem_append.1 hc with hc | hc
              · exact hrest c hc
              · obtain ⟨⟨k, hk⟩, _⟩ := hmem0 c hc
                exact henv.2 (k, c.ty) hk
            · refine cont_pot_glue ?_ ?_
              · have := henv.1
                omega
              · intro c hc
                have := (hmem0 c hc).2
                omega
      · -- tstruct / vmap
        rename_i fs es heqty heqsrc
        revert h
        cases hsc : structChildren pr.conv es
            ((unwrapPtr pr.tenv heap it.tgt it.ty).2.1) 0 fs with
        | panicked => intro h; exact nomatch h
        | ok cs =>
          intro h
          injection h with h
          subst h
          obtain ⟨hlen0, hmem0⟩ := structChildren_ok hsc
          have hg : gsize it.src = 1 + gsizeM es := by rw [heqsrc]; rfl
          have hu := @unwrapPtr_fits B pr.tenv it.ty heap it.tgt hit
          rw [heqty] at hu
          constructor
          · intro c hc
            rcases List.mem_append.1 hc with hc | hc
            · exact hrest c hc
            · obtain ⟨⟨k, hk⟩, _⟩ := hmem0 c hc
              exact tyFits_struct_field hu hk
          · refine cont_pot_glue ?_ ?_
            · have := tyFits_struct_len hu
              omega
            · intro c hc
              have := (hmem0 c hc).2
              omega
      · -- tnamed / other
        injection h with h
        subst h
        refine ⟨hrest, ?_⟩
        show queuePot B rest < itemPot B it + queuePot B rest
        omega
      · -- tstruct / other
        injection h with h
        subst h
        refine ⟨hrest, ?_⟩
        show queuePot B rest < itemPot B it + queuePot B rest
        omega
      · -- unsupported kind
        injection h with h
        subst h
        refine ⟨hrest, ?_⟩
        show queuePot B rest < itemPot B it + queuePot B rest
        omega

/-- With fuel at least the queue potential, the map-variant loop never runs
out of fuel. -/
theorem mapRun_no_oom {B : Nat} {pr : MParams} (hB : envFits B pr.tenv) :
    ∀ (fuel : Nat) (st : MSt), (∀ c ∈ st.queue, tyFits B c.ty) →
      queuePot B st.queue ≤ fuel → mapRun pr fuel st ≠ .oom := by
  intro fuel
  induction fuel with
  | zero =>
    intro st hq hpot h
    rw [mapRun.eq_def] at h
    simp only [] at h
    revert h
    cases hqe : st.queue with
    | nil => intro h; exact nomatch h
    | cons it rest =>
      intro h
      rw [hqe, queuePot_cons] at hpot
      have := itemPot_pos B it
      omega
  | succ m ih =>
    intro st hq hpot h
    rw [mapRun.eq_def] at h
    simp only [] at h
    revert h
    cases hqe : st.queue with
    | nil => intro h; exact nomatch h
    | cons it rest =>
      intro h
      simp only [] at h
      rw [hqe] at hq hpot
      rw [queuePot_cons] at hpot
      revert h
      cases hstep : mapStep pr it rest st.heap st.flags st.log with
      | fail e => intro h; exact nomatch h
      | panicked => intro h; exact nomatch h
      | cont st2 =>
        intro h
        have hit : tyFits B it.ty := hq it (by simp)
        have hrest : ∀ c ∈ rest, tyFits B c.ty := fun c hc =>
          hq c (List.mem_cons_of_mem _ hc)
        obtain ⟨hq2, hpot2⟩ := mapStep_cont_pot hB hit hrest hstep
        exact ih st2 hq2 (by omega) h

/-- `MapSource.ReadKey` never exhausts its fuel `mapFuel`. -/
theorem ReadKey_no_oom (orc : Oracle) (tenv : TypeEnv) (s : MapSource) (key : String)
    (tg : Tgt) : MapSource.ReadKey orc tenv s key tg ≠ .oom := by
  cases tg with
  | notPtr => intro h; exact nomatch h
  | nilPtr => intro h; exact nomatch h
  | valid t =>
    unfold MapSource.ReadKey
    cases hg : getKeyFromMap s.conv s.data key with
    | panicked => intro h; exact nomatch h
    | ok v =>
      have hB : envFits (tsize t + tesize tenv) tenv :=
        envFits_of_tesize_le (by omega)
      refine mapRun_no_oom hB _ _ ?_ ?_
      · intro c hc
        simp only [List.mem_singleton] at hc
        subst hc
        show tyFits (tsize t + tesize tenv) t
        exact tyFits_of_tsize_le (by omega)
      · show queuePot _ [{ src := v, tgt := ⟨.root, []⟩, ty := t, cb := none }] ≤ _
        rw [show queuePot (tsize t + tesize tenv)
            [{ src := v, tgt := ⟨.root, []⟩, ty := t, cb := none }] =
          itemPot (tsize t + tesize tenv)
            { src := v, tgt := ⟨.root, []⟩, ty := t, cb := none } from by
            simp [queuePot]]
        exact le_of_eq rfl

/-- `MapSource.Read` never exhausts its fuel `mapFuel`. -/
theorem Read_no_oom (orc : Oracle) (tenv : TypeEnv) (s : MapSource) (tg : Tgt) :
    MapSource.Read orc tenv s tg ≠ .oom := by
  cases tg with
  | notPtr => intro h; exact nomatch h
  | nilPtr => intro h; exact nomatch h
  | valid t =>
    unfold MapSource.Read
    simp only []
    by_cases hs : isStructKind t
    · rw [if_pos hs]
      have hB : envFits (tsize t + tesize tenv) tenv :=
        envFits_of_tesize_le (by omega)
      refine mapRun_no_oom hB _ _ ?_ ?_
      · intro c hc
        simp only [List.mem_singleton] at hc
        subst hc
        show tyFits (tsize t + tesize tenv) t
        exact tyFits_of_tsize_le (by omega)
      · show queuePot _ [{ src := .vmap s.data, tgt := ⟨.root, []⟩, ty := t, cb := none }] ≤ _
        rw [show queuePot (tsize t + tesize tenv)
            [{ src := .vmap s.data, tgt := ⟨.root, []⟩, ty := t, cb := none }] =
          itemPot (tsize t + tesize tenv)
            { src := .vmap s.data, tgt := ⟨.root, []⟩, ty := t, cb := none } from by
            simp [queuePot]]
        exact le_of_eq rfl
    · rw [if_neg hs]
      intro h
      exact nomatch h

/-! ### The env-variant loop: nested runs never exhaust their fuel -/

theorem readEnvPrimitive_no_oom (pr : EParams) (value : String) (heap : Heap)
    (tgt : Loc) (ty : GoType) : readEnvPrimitive pr value heap tgt ty ≠ .oom := by
  cases ty with
  | tstring => intro h; exact nomatch h
  | tint =>
    simp only [readEnvPrimitive]
    cases goAtoi value with
    | error e => intro h; exact nomatch h
    | ok n => intro h; exact nomatch h
  | tfloat =>
    simp only [readEnvPrimitive]
    cases goParseFloat value with
    | error e => intro h; exact nomatch h
    | ok q => intro h; exact nomatch h
  | tbool =>
    simp only [readEnvPrimitive]
    cases parseBool value with
    | error e => intro h; exact nomatch h
    | ok b => intro h; exact nomatch h
  | tmap kt vt =>
    simp only [readEnvPrimitive]
    cases unmarshalIfaceMap value with
    | error e => intro h; exact nomatch h
    | ok data =>
      cases hjs : NewJSONSource pr.g [] "" with
      | error e => intro h; exact nomatch h
      | ok js =>
        have hB : envFits (tsize (.tmap kt vt) + tesize pr.tenv) pr.tenv :=
          envFits_of_tesize_le (by omega)
        have hrun := @mapRun_no_oom (tsize (.tmap kt vt) + tesize pr.tenv)
          ⟨pr.tenv, pr.oracle, js.typ, js.conv⟩ hB
          (mapFuel pr.tenv (.tmap kt vt) data)
          ⟨heap, [], [{ src := data, tgt := tgt, ty := .tmap kt vt, cb := none }], []⟩
          (by
            intro c hc
            simp only [List.mem_singleton] at hc
            subst hc
            show tyFits (tsize (GoType.tmap kt vt) + tesize pr.tenv) (.tmap kt vt)
            exact tyFits_of_tsize_le (by omega))
          (by
            show queuePot _ [{ src := data, tgt := tgt, ty := .tmap kt vt, cb := none }] ≤ _
            rw [show queuePot (tsize (GoType.tmap kt vt) + tesize pr.tenv)
                [{ src := data, tgt := tgt, ty := .tmap kt vt, cb := none }] =
              itemPot (tsize (GoType.tmap kt vt) + tesize pr.tenv)
                { src := data, tgt := tgt, ty := .tmap kt vt, cb := none } from by
                simp [queuePot]]
            exact le_of_eq rfl)
        simp only []
        split
        · intro h; exact nomatch h
        · intro h; exact nomatch h
        · intro h; exact nomatch h
        · rename_i heq
          exact absurd heq hrun
  | tptr t => intro h; exact nomatch h
  | tslice t => intro h; exact nomatch h
  | tstruct fs => intro h; exact nomatch h
  | tnamed n => intro h; exact nomatch h

theorem envSliceLoop_no_oom (pr : EParams) (t : GoType) :
    ∀ (vs : List String) (h : Heap), envSliceLoop pr t h vs ≠ .oom := by
  intro vs
  induction vs with
  | nil => intro h hc; exact nomatch hc
  | cons v vs ih =>
    intro h hc
    rw [envSliceLoop.eq_def] at hc
    dsimp only at hc
    revert hc
    cases hp : readEnvPrimitive pr v ⟨h.root, h.cells ++ [.dzero t]⟩
        ⟨.cell h.cells.length, []⟩ t with
    | panicked => intro hc; exact nomatch hc
    | oom => exact absurd hp (readEnvPrimitive_no_oom _ _ _ _ _)
    | ok h2 =>
      intro hc
      simp only [] at hc
      split at hc
      · exact nomatch hc
      · exact nomatch hc
      · rename_i heq
        exact absurd heq (ih h2)
    | err e h2 =>
      intro hc
      simp only [] at hc
      split at hc
      · exact nomatch hc
      · exact nomatch hc
      · rename_i heq
        exact absurd heq (ih _)

theorem readEnvSlice_no_oom (pr : EParams) (value : String) (heap : Heap)
    (tgt : Loc) (t : GoType) : readEnvSlice pr value heap tgt t ≠ .oom := by
  unfold readEnvSlice
  by_cases hv : value = ""
  · rw [if_pos hv]
    intro h
    exact nomatch h
  · rw [if_neg hv]
    have hjson : ∀ t2 : GoType, t2 = t →
        (match unmarshalIfaceSlice value with
          | .error e => PrimOut.err e heap
          | .ok data =>
            match NewJSONSource pr.g [] "" with
            | .error e => PrimOut.err e heap
            | .ok js =>
              match mapRun ⟨pr.tenv, pr.oracle, js.typ, js.conv⟩
                  (mapFuel pr.tenv (.tslice t) data)
                  ⟨heap, [], [{ src := data, tgt := tgt, ty := .tslice t, cb := none }], []⟩ with
              | .done st => PrimOut.ok st.heap
              | .fail e => PrimOut.err e heap
              | .panicked => PrimOut.panicked
              | .oom => PrimOut.oom) ≠ PrimOut.oom := by
      intro t2 _
      cases unmarshalIfaceSlice value with
      | error e => intro h; exact nomatch h
      | ok data =>
        cases hjs : NewJSONSource pr.g [] "" with
        | error e => intro h; exact nomatch h
        | ok js =>
          have hB : envFits (tsize (.tslice t) + tesize pr.tenv) pr.tenv :=
            envFits_of_tesize_le (by omega)
          have hrun := @mapRun_no_oom (tsize (.tslice t) + tesize pr.tenv)
            ⟨pr.tenv, pr.oracle, js.typ, js.conv⟩ hB
            (mapFuel pr.tenv (.tslice t) data)
            ⟨heap, [], [{ src := data, tgt := tgt, ty := .tslice t, cb := none }], []⟩
            (by
              intro c hc
              simp only [List.mem_singleton] at hc
              subst hc
              show tyFits (tsize (GoType.tslice t) + tesize pr.tenv) (.tslice t)
              exact tyFits_of_tsize_le (by omega))
            (by
              show queuePot _ [{ src := data, tgt := tgt, ty := .tslice t, cb := none }] ≤ _
              rw [show queuePot (tsize (GoType.tslice t) + tesize pr.tenv)
                  [{ src := data, tgt := tgt, ty := .tslice t, cb := none }] =
                itemPot (tsize (GoType.tslice t) + tesize pr.tenv)
                  { src := data, tgt := tgt, ty := .tslice t, cb := none } from by
                  simp [queuePot]]
              exact le_of_eq rfl)
          simp only []
          split
          · intro h; exact nomatch h
          · intro h; exact nomatch h
          · intro h; exact nomatch h
          · rename_i heq
            exact absurd heq hrun
    cases t with
    | tstruct fs => exact hjson _ rfl
    | tnamed n => exact hjson _ rfl
    | tslice t2 => exact hjson _ rfl
    | tstring =>
      simp only []
      split
      · intro h2; exact nomatch h2
      · intro h2; exact nomatch h2
      · rename_i heq
        exact absurd heq (envSliceLoop_no_oom _ _ _ _)
    | tint =>
      simp only []
      split
      · intro h2; exact nomatch h2
      · intro h2; exact nomatch h2
      · rename_i heq
        exact absurd heq (envSliceLoop_no_oom _ _ _ _)
    | tfloat =>
      simp only []
      split
      · intro h2; exact nomatch h2
      · intro h2; exact nomatch h2
      · rename_i heq
        exact absurd heq (envSliceLoop_no_oom _ _ _ _)
    | tbool =>
      simp only []
      split
      · intro h2; exact nomatch h2
      · intro h2; exact nomatch h2
      · rename_i heq
        exact absurd heq (envSliceLoop_no_oom _ _ _ _)
    | tptr t2 =>
      simp only []
      split
      · intro h2; exact nomatch h2
      · intro h2; exact nomatch h2
      · rename_i heq
        exact absurd heq (envSliceLoop_no_oom _ _ _ _)
    | tmap kt vt =>
      simp only []
      split
      · intro h2; exact nomatch h2
      · intro h2; exact nomatch h2
      · rename_i heq
        exact absurd heq (envSliceLoop_no_oom _ _ _ _)

/-! ### Env-variant termination for types free of named-struct references -/

mutual

/-- `true` iff the type contains no named-struct reference (`tnamed`). -/
def nameFree : GoType → Bool
  | .tptr t => nameFree t
  | .tslice t => nameFree t
  | .tmap k v => nameFree k && nameFree v
  | .tstruct fs => nameFreeL fs
  | .tnamed _ => false
  | .tstring => true
  | .tint => true
  | .tfloat => true
  | .tbool => true

def nameFreeL : List (String × GoType) → Bool
  | [] => true
  | (_, t) :: fs => nameFree t && nameFreeL fs

end

/-- The env-variant termination measure: total type size of the queue. -/
def envPot (q : List EnvItem) : Nat := (q.map fun it => tsize it.ty).sum

theorem envPot_cons (it : EnvItem) (q : List EnvItem) :
    envPot (it :: q) = tsize it.ty + envPot q := by
  simp [envPot]

theorem envPot_append (a b : List EnvItem) :
    envPot (a ++ b) = envPot a + envPot b := by
  simp [envPot]

theorem unwrapPtr_env_aux {tenv : TypeEnv} :
    ∀ n ty (h : Heap) (tgt : Loc), tsize ty ≤ n →
      tsize (unwrapPtr tenv h tgt ty).2.2 ≤ tsize ty ∧
        (nameFree ty = true → nameFree (unwrapPtr tenv h tgt ty).2.2 = true) := by
  intro n
  induction n with
  | zero => intro ty h tgt hle; have := tsize_pos ty; omega
  | succ m ih =>
    intro ty h tgt hle
    cases ty with
    | tptr t =>
      rw [show unwrapPtr tenv h tgt (.tptr t) =
        unwrapPtr tenv (h.write tenv tgt (.dptr t (some (.dzero t)))) (tgt.push .deref) t
        from rfl]
      have hle2 : tsize t ≤ m := by simp only [tsize] at hle; omega
      obtain ⟨h1, h2⟩ := ih t (h.write tenv tgt (.dptr t (some (.dzero t)))) (tgt.push .deref) hle2
      constructor
      · simp only [tsize]
        omega
      · intro hnf
        exact h2 (by simpa [nameFree] using hnf)
    | tslice t => exact ⟨le_rfl, fun hn => hn⟩
    | tmap k v => exact ⟨le_rfl, fun hn => hn⟩
    | tstruct fs => exact ⟨le_rfl, fun hn => hn⟩
    | tnamed nm => exact ⟨le_rfl, fun hn => hn⟩
    | tstring => exact ⟨le_rfl, fun hn => hn⟩
    | tint => exact ⟨le_rfl, fun hn => hn⟩
    | tfloat => exact ⟨le_rfl, fun hn => hn⟩
    | tbool => exact ⟨le_rfl, fun hn => hn⟩

theorem unwrapPtr_env {tenv : TypeEnv} {ty : GoType} {h : Heap} {tgt : Loc} :
    tsize (unwrapPtr tenv h tgt ty).2.2 ≤ tsize ty ∧
      (nameFree ty = true → nameFree (unwrapPtr tenv h tgt ty).2.2 = true) :=
  unwrapPtr_env_aux (tsize ty) ty h tgt le_rfl

theorem envStructChildren_bound (tgt : Loc) (pkey : String) :
    ∀ (i : Nat) (fs : List (String × GoType)),
      envPot (envStructChildren tgt pkey i fs) ≤ tsizeL fs ∧
        (nameFreeL fs = true →
          ∀ c ∈ envStructChildren tgt pkey i fs, nameFree c.ty = true) := by
  intro i fs
  induction fs generalizing i with
  | nil => exact ⟨by simp [envStructChildren, envPot], by simp [envStructChildren]⟩
  | cons f fs ih =>
    obtain ⟨key, fty⟩ := f
    by_cases hk : key = ""
    · rw [show envStructChildren tgt pkey i ((key, fty) :: fs) =
        envStructChildren tgt pkey (i + 1) fs from by simp [envStructChildren, hk]]
      obtain ⟨h1, h2⟩ := ih (i + 1)
      constructor
      · have := tsize_pos fty
        simp only [tsizeL]
        omega
      · intro hnf c hc
        have : nameFreeL fs = true := by
          simp only [nameFreeL, Bool.and_eq_true] at hnf
          exact hnf.2
        exact h2 this c hc
    · rw [show envStructChildren tgt pkey i ((key, fty) :: fs) =
        { key := if pkey = "" then key else pkey ++ "." ++ key,
          tgt := tgt.push (.fld i), ty := fty } ::
          envStructChildren tgt pkey (i + 1) fs from by simp [envStructChildren, hk]]
      obtain ⟨h1, h2⟩ := ih (i + 1)
      constructor
      · rw [envPot_cons]
        simp only [tsizeL]
        omega
      · intro hnf c hc
        simp only [nameFreeL, Bool.and_eq_true] at hnf
        rcases List.mem_cons.1 hc with rfl | hc2
        · exact hnf.1
        · exact h2 hnf.2 c hc2

/-- One continuing step of the env loop, on a queue of `tnamed`-free types:
the measure strictly decreases and the queue stays `tnamed`-free. -/
theorem envStep_cont_pot {pr : EParams} {it : EnvItem} {rest : List EnvItem}
    {heap : Heap} {st2 : ESt} (hnf : nameFree it.ty = true)
    (hrest : ∀ c ∈ rest, nameFree c.ty = true)
    (h : envStep pr it rest heap = .cont st2) :
    (∀ c ∈ st2.queue, nameFree c.ty = true) ∧
      envPot st2.queue < tsize it.ty + envPot rest := by
  have hpos := tsize_pos it.ty
  have hun := @unwrapPtr_env pr.tenv it.ty heap it.tgt
  unfold envStep at h
  dsimp only at h
  split at h
  · -- slice
    split at h
    · exact nomatch h
    · split at h
      · injection h with h
        subst h
        exact ⟨hrest, by
          show envPot rest < tsize it.ty + envPot rest
          omega⟩
      · exact nomatch h
      · exact nomatch h
      · exact nomatch h
  · -- named struct: impossible on a nameFree queue
    rename_i n heqty
    exfalso
    have := hun.2 hnf
    rw [heqty] at this
    simp [nameFree] at this
  · -- inline struct
    rename_i fs heqty
    injection h with h
    subst h
    have hts := hun.1
    rw [heqty] at hts
    simp only [tsize] at hts
    have hnf2 : nameFreeL fs = true := by
      have := hun.2 hnf
      rw [heqty] at this
      simpa [nameFree] using this
    obtain ⟨hb1, hb2⟩ := envStructChildren_bound
      (unwrapPtr pr.tenv heap it.tgt it.ty).2.1 it.key 0 fs
    constructor
    · intro c hc
      rcases List.mem_append.1 hc with hc | hc
      · exact hrest c hc
      · exact hb2 hnf2 c hc
    · rw [envPot_append]
      omega
  · -- primitive
    split at h
    · exact nomatch h
    · split at h
      · injection h with h
        subst h
        exact ⟨hrest, by
          show envPot rest < tsize it.ty + envPot rest
          omega⟩
      · injection h with h
        subst h
        exact ⟨hrest, by
          show envPot rest < tsize it.ty + envPot rest
          omega⟩
      · exact nomatch h
      · exact nomatch h

/-- The env step never exhausts nested-run fuel. -/
theorem envStep_no_oom (pr : EParams) (it : EnvItem) (rest : List EnvItem)
    (heap : Heap) : envStep pr it rest heap ≠ .oom := by
  intro h
  unfold envStep at h
  dsimp only at h
  split at h
  · -- slice
    split at h
    · exact nomatch h
    · split at h
      · exact nomatch h
      · exact nomatch h
      · exact nomatch h
      · rename_i heq
        exact absurd heq (readEnvSlice_no_oom _ _ _ _ _)
  · split at h
    · split at h
      · exact nomatch h
      · exact nomatch h
    · exact nomatch h
  · exact nomatch h
  · split at h
    · exact nomatch h
    · split at h
      · exact nomatch h
      · exact nomatch h
      · exact nomatch h
      · rename_i heq
        exact absurd heq (readEnvPrimitive_no_oom _ _ _ _ _)

/-- With fuel at least the total type size of the queue, the env loop on a
`tnamed`-free queue never runs out of fuel. -/
theorem envRun_no_oom {pr : EParams} :
    ∀ (fuel : Nat) (st : ESt), (∀ c ∈ st.queue, nameFree c.ty = true) →
      envPot st.queue ≤ fuel → envRun pr fuel st ≠ .oom := by
  intro fuel
  induction fuel with
  | zero =>
    intro st hq hpot h
    rw [envRun.eq_def] at h
    simp only [] at h
    revert h
    cases hqe : st.queue with
    | nil => intro h; exact nomatch h
    | cons it rest =>
      intro h
      rw [hqe, envPot_cons] at hpot
      have := tsize_pos it.ty
      omega
  | succ m ih =>
    intro st hq hpot h
    rw [envRun.eq_def] at h
    simp only [] at h
    revert h
    cases hqe : st.queue with
    | nil => intro h; exact nomatch h
    | cons it rest =>
      intro h
      simp only [] at h
      rw [hqe] at hq hpot
      rw [envPot_cons] at hpot
      revert h
      cases hstep : envStep pr it rest st.heap with
      | fail e => intro h; exact nomatch h
      | panicked => intro h; exact nomatch h
      | oom => exact absurd hstep (envStep_no_oom _ _ _ _)
      | cont st2 =>
        intro h
        have hit : nameFree it.ty = true := hq it (by simp)
        have hrest : ∀ c ∈ rest, nameFree c.ty = true := fun c hc =>
          hq c (List.mem_cons_of_mem _ hc)
        obtain ⟨hq2, hpot2⟩ := envStep_cont_pot hit hrest hstep
        exact ih st2 hq2 (by omega) h

/-- `EnvSource.ReadKeyB` never exhausts its fuel on a `tnamed`-free target. -/
theorem ReadKeyB_no_oom (pr : EParams) (key : String) (t : GoType)
    (hnf : nameFree t = true) : EnvSource.ReadKeyB pr key (.valid t) ≠ .oom := by
  unfold EnvSource.ReadKeyB EnvSource.ReadKey
  simp only []
  refine envRun_no_oom _ _ ?_ ?_
  · intro c hc
    simp only [List.mem_singleton] at hc
    subst hc
    exact hnf
  · show envPot [{ key := key, tgt := ⟨.root, []⟩, ty := t }] ≤ tsize t
    simp [envPot]

/-! ### Divergence of the env variant on a recursive record type -/

/-- The recursive Go type `type Node struct { Next *Node }` as a type
environment: the named struct `node` has one field of type `*node`. -/
def nodeTenv : TypeEnv := [("node", [("next", .tptr (.tnamed "node"))])]

def nodePr : EParams := ⟨nodeTenv, noReaders, gblEmpty, .camel⟩

/-- One env step on a `node`-typed (or `*node`-typed) singleton queue always
enqueues exactly one `*node`-typed item: the loop never drains. -/
theorem nodeStep (key : String) (tgt : Loc) (ty : GoType) (heap : Heap)
    (hty : ty = .tnamed "node" ∨ ty = .tptr (.tnamed "node")) :
    ∃ h2 key2 tgt2,
      envStep nodePr ⟨key, tgt, ty⟩ [] heap =
        .cont ⟨h2, [⟨key2, tgt2, .tptr (.tnamed "node")⟩]⟩ := by
  rcases hty with rfl | rfl
  · exact ⟨_, _, _, rfl⟩
  · exact ⟨_, _, _, rfl⟩

theorem nodeRun_oom :
    ∀ (fuel : Nat) (key : String) (tgt : Loc) (ty : GoType) (heap : Heap),
      (ty = .tnamed "node" ∨ ty = .tptr (.tnamed "node")) →
      envRun nodePr fuel ⟨heap, [⟨key, tgt, ty⟩]⟩ = .oom := by
  intro fuel
  induction fuel with
  | zero =>
    intro key tgt ty heap hty
    rw [envRun.eq_def]
  | succ m ih =>
    intro key tgt ty heap hty
    rw [envRun.eq_def]
    simp only []
    obtain ⟨h2, key2, tgt2, hstep⟩ := nodeStep key tgt ty heap hty
    rw [hstep]
    exact ih key2 tgt2 _ h2 (Or.inr rfl)

/-- C7: the map-variant entry points always terminate (their internal fuel
`mapFuel` is never exhausted), and the flat (env) variant's `ReadKey`
terminates within fuel `tsize t` for every target type free of named-struct
references; the claim's "all target types including recursive ones" is
refuted for the env variant by `C7_env_recursive_diverges`. -/
theorem C7_termination_amended :
    (∀ (orc : Oracle) (tenv : TypeEnv) (s : MapSource) (key : String) (tg : Tgt),
        MapSource.ReadKey orc tenv s key tg ≠ .oom) ∧
    (∀ (orc : Oracle) (tenv : TypeEnv) (s : MapSource) (tg : Tgt),
        MapSource.Read orc tenv s tg ≠ .oom) ∧
    (∀ (pr : EParams) (key : String) (t : GoType), nameFree t = true →
        EnvSource.ReadKeyB pr key (.valid t) ≠ .oom) :=
  ⟨ReadKey_no_oom, Read_no_oom, fun pr key t h => ReadKeyB_no_oom pr key t h⟩

/-- C7 counterexample: decoding the recursive record type
`type Node struct { Next *Node }` through the env variant never returns: the
work loop exhausts every finite fuel, because the record case re-enqueues a
`*node` field item unconditionally (src/env.go readKey's struct case loops
over fields with no lookup-failure cutoff). -/
theorem C7_env_recursive_diverges :
    ¬ ∃ fuel, EnvSource.ReadKey nodePr fuel "n" (.valid (.tnamed "node")) ≠ .oom := by
  intro hex
  obtain ⟨fuel, hne⟩ := hex
  apply hne
  unfold EnvSource.ReadKey
  exact nodeRun_oom fuel "n" ⟨.root, []⟩ _ _ (Or.inl rfl)

/-- Witness: the amended termination theorem applied at concrete inputs — a
string target through the env variant and an int target through a JSON map
source. -/
theorem C7_termination_amended_witness :
    nameFree .tstring = true ∧
    EnvSource.ReadKeyB ⟨[], noReaders, gblEmpty, .snake⟩ "a" (.valid .tstring) ≠ .oom ∧
    MapSource.ReadKey noReaders [] ⟨"json", [], .snake⟩ "" (.valid .tint) ≠ .oom :=
  ⟨rfl, C7_termination_amended.2.2 ⟨[], noReaders, gblEmpty, .snake⟩ "a" .tstring rfl,
    C7_termination_amended.1 noReaders [] ⟨"json", [], .snake⟩ "" (.valid .tint)⟩

/-! ## C3: the map-entry two-item protocol -/

/-- Positions `2i` and `2i+1` of the children of a mapping item are entry
`i`'s key item and value item: key strictly before value, sharing the flag
`f0 + j0 + i` and the two fresh cells `c0 + 2(j0+i)` and `c0 + 2(j0+i) + 1`. -/
theorem mapEntryItems_get (kt vt : GoType) (tgt : Loc) (f0 c0 : Nat) :
    ∀ (es : List (String × GoValue)) (j0 i : Nat) (k : String) (v : GoValue),
      es[i]? = some (k, v) →
      (mapEntryItems kt vt tgt f0 c0 j0 es)[2 * i]? =
        some { src := .vstring k, tgt := ⟨.cell (c0 + 2 * (j0 + i)), []⟩,
               ty := kt, cb := some (.setFlag (f0 + (j0 + i))) } ∧
      (mapEntryItems kt vt tgt f0 c0 j0 es)[2 * i + 1]? =
        some { src := v, tgt := ⟨.cell (c0 + 2 * (j0 + i) + 1), []⟩,
               ty := vt,
               cb := some (.commit (f0 + (j0 + i)) (c0 + 2 * (j0 + i))
                 (c0 + 2 * (j0 + i) + 1) tgt) } := by
  intro es
  induction es with
  | nil => intro j0 i k v h; simp at h
  | cons e es ih =>
    obtain ⟨k0, v0⟩ := e
    intro j0 i k v h
    cases i with
    | zero =>
      simp only [List.getElem?_cons_zero] at h
      injection h with h
      cases h
      simp [mapEntryItems]
    | succ i2 =>
      simp only [List.getElem?_cons_succ] at h
      have := ih (j0 + 1) i2 k v h
      have harith : j0 + 1 + i2 = j0 + (i2 + 1) := by omega
      rw [harith] at this
      refine ⟨?_, ?_⟩
      · rw [show 2 * (i2 + 1) = (2 * i2 + 1) + 1 by omega]
        simp only [mapEntryItems, List.getElem?_cons_succ]
        exact this.1
      · rw [show 2 * (i2 + 1) + 1 = ((2 * i2 + 1) + 1) + 1 by omega]
        simp only [mapEntryItems, List.getElem?_cons_succ]
        exact this.2

theorem runCB_commit_unset {tenv : TypeEnv} {flags : List Bool} {h : Heap}
    {log : List Ev} {e kc vc : Nat} {mloc : Loc}
    (hflag : flags.getD e false = false) :
    runCB tenv flags h log (some (.commit e kc vc mloc)) =
      (flags, h, log ++ [.cb (.valOf e) false]) := by
  simp only [runCB, hflag]
  simp

/-- C3: per source-map entry `i`, exactly two work items are enqueued —
the key item strictly before the value item — sharing the entry flag
`f0 + i` and two fresh cells, and the value item's `commit` callback with the
flag still unset performs no write (it only logs the unset flag); the claim's
final part — that the key item's callback has always already run when the
value callback runs — is refuted by `C3_value_callback_flag_unset`. -/
theorem C3_entry_protocol_amended :
    (∀ (kt vt : GoType) (tgt : Loc) (f0 c0 : Nat) (es : List (String × GoValue))
        (i : Nat) (k : String) (v : GoValue), es[i]? = some (k, v) →
      (mapEntryItems kt vt tgt f0 c0 0 es)[2 * i]? =
        some { src := .vstring k, tgt := ⟨.cell (c0 + 2 * i), []⟩,
               ty := kt, cb := some (.setFlag (f0 + i)) } ∧
      (mapEntryItems kt vt tgt f0 c0 0 es)[2 * i + 1]? =
        some { src := v, tgt := ⟨.cell (c0 + 2 * i + 1), []⟩, ty := vt,
               cb := some (.commit (f0 + i) (c0 + 2 * i) (c0 + 2 * i + 1) tgt) }) ∧
    (∀ (tenv : TypeEnv) (flags : List Bool) (h : Heap) (log : List Ev)
        (e kc vc : Nat) (mloc : Loc), flags.getD e false = false →
      runCB tenv flags h log (some (.commit e kc vc mloc)) =
        (flags, h, log ++ [.cb (.valOf e) false])) := by
  constructor
  · intro kt vt tgt f0 c0 es i k v h
    have := mapEntryItems_get kt vt tgt f0 c0 es 0 i k v h
    simpa using this
  · intro tenv flags h log e kc vc mloc hflag
    exact runCB_commit_unset hflag

/-- C3 counterexample: decoding `{"maybe": "x"}` into a `map[bool]string`
destination, the key item's boolean coercion fails ("maybe" is not a valid
boolean spelling), so its `setFlag` callback never runs; the value item
decodes fine and its callback runs with the flag still unset — the log
records the value callback observing `false`, and no key callback event ever
occurs.  This refutes "whenever the value item's callback runs, the key item
has always already completed". -/
theorem C3_value_callback_flag_unset :
    ∃ st, MapSource.ReadKey noReaders [] ⟨"json", [("maybe", .vstring "x")], .camel⟩ ""
        (.valid (.tmap .tbool .tstring)) = .done st ∧
      Ev.cb (.valOf 0) false ∈ st.log ∧
      Ev.cb (.keyOf 0) true ∉ st.log ∧
      Ev.cb (.keyOf 0) false ∉ st.log := by
  refine ⟨_, rfl, ?_, ?_, ?_⟩
  · decide
  · decide
  · decide

/-- Witness: the amended entry-protocol theorem at a concrete one-entry
source map and a concrete unset-flag commit callback. -/
theorem C3_entry_protocol_amended_witness :
    ([("a", GoValue.vstring "b")][0]? = some ("a", GoValue.vstring "b")) ∧
    (mapEntryItems .tbool .tstring ⟨.root, []⟩ 0 0 0 [("a", .vstring "b")])[0]? =
      some { src := .vstring "a", tgt := ⟨.cell 0, []⟩, ty := .tbool,
             cb := some (.setFlag 0) } ∧
    (mapEntryItems .tbool .tstring ⟨.root, []⟩ 0 0 0 [("a", .vstring "b")])[1]? =
      some { src := .vstring "b", tgt := ⟨.cell 1, []⟩, ty := .tstring,
             cb := some (.commit 0 0 1 ⟨.root, []⟩) } ∧
    runCB [] [] ⟨.dzero .tstring, []⟩ [] (some (.commit 0 0 1 ⟨.root, []⟩)) =
      ([], ⟨.dzero .tstring, []⟩, [.cb (.valOf 0) false]) := by
  have h1 := C3_entry_protocol_amended.1 .tbool .tstring ⟨.root, []⟩ 0 0
    [("a", .vstring "b")] 0 "a" (.vstring "b") rfl
  have h2 := C3_entry_protocol_amended.2 [] [] ⟨.dzero .tstring, []⟩ [] 0 0 1
    ⟨.root, []⟩ rfl
  exact ⟨rfl, h1.1, h1.2, h2⟩
